import Mathlib

/-!
# Verification of the `seedselection` crate

A shallow embedding of `src/hash.rs` and `src/xor_dist.rs` (crate
`seedselection`), together with proofs about the selection algorithm.

Modelling conventions:
* byte strings are `List Nat` (each element is one byte);
* `num_bigint::BigUint` values are `Nat`;
* `u64` arithmetic appears only as the low-64-bit reduction
  `to_u64_digits().first()`, modelled exactly, and as `u64` division by a
  weight, which never overflows, so `Nat` is a faithful carrier;
* the pluggable `digest::Digest` algorithm is a function from the whole
  accumulated input stream to the digest (`List Nat → List Nat`); the
  `update`/`finalize` interface is modelled by `DigestState`;
* `std::collections::BinaryHeap` is modelled operation by operation after
  the Rust standard library sources (`push`/`sift_up`,
  `pop`/`sift_down_to_bottom`, `peek`, `into_sorted_vec`/`sift_down_range`).
  All internal comparisons of `BinaryHeap` are performed with the operators
  `<=`, `<`, `>=`, which dispatch to the manual
  `impl PartialOrd for HeapEntry` (comparing `distance` un-reversed), not to
  the reversed `impl Ord`.  The model therefore compares distances
  un-reversed, which reproduces the crate's test vectors exactly.
-/

namespace SeedSelection

/-- One byte of the UTF-8 encoding pipeline: the byte list of a single
Unicode code point `c` (standard UTF-8). -/
def utf8Bytes (c : Nat) : List Nat :=
  if c < 128 then [c]
  else if c < 2048 then [192 + c / 64, 128 + c % 64]
  else if c < 65536 then [224 + c / 4096, 128 + c / 64 % 64, 128 + c % 64]
  else [240 + c / 262144, 128 + c / 4096 % 64, 128 + c / 64 % 64, 128 + c % 64]

/-- The UTF-8 bytes of a string (`str::as_bytes` in Rust). -/
def strBytes (s : String) : List Nat :=
  (s.data.map (fun ch => utf8Bytes ch.toNat)).flatten

/-- Model of a `digest::Digest` hashing state: the state of every streaming
digest is determined by the accumulated input bytes. -/
structure DigestState where
  data : List Nat
deriving DecidableEq, Repr

/-- A fresh digest state, as produced by the `hasher()` closure. -/
def DigestState.new : DigestState := ⟨[]⟩

/-- `Digest::update`: absorb bytes into the state. -/
def DigestState.update (h : DigestState) (bs : List Nat) : DigestState :=
  ⟨h.data ++ bs⟩

/-- `Digest::finalize`: apply the pluggable digest algorithm `alg` to the
absorbed stream. -/
def DigestState.finalize (h : DigestState) (alg : List Nat → List Nat) : List Nat :=
  alg h.data

/-- `compute_hash` from `src/hash.rs` lines 22–33: absorb the UTF-8 bytes of
`name`, then the raw `seed` bytes, then the decimal string of `seq`
(`seq.to_string()`), and finalize. -/
def compute_hash (name : String) (seed : List Nat) (seq : Nat)
    (alg : List Nat → List Nat) : List Nat :=
  let h := DigestState.new
  let h := h.update (strBytes name)
  let h := h.update seed
  let h := h.update (strBytes (Nat.repr seq))
  h.finalize alg

/-- `BigUint::from_bytes_be`: big-endian bytes to an unbounded integer. -/
def fromBytesBE (bs : List Nat) : Nat :=
  bs.foldl (fun acc b => acc * 256 + b) 0

/-- `BigUint::to_u64_digits`: little-endian base-2^64 limbs, empty for zero.
The first argument is fuel; `toU64Digits` supplies enough. -/
def toU64DigitsAux : Nat → Nat → List Nat
  | _, 0 => []
  | 0, _ + 1 => []
  | fuel + 1, v + 1 => (v + 1) % 2 ^ 64 :: toU64DigitsAux fuel ((v + 1) / 2 ^ 64)

/-- `BigUint::to_u64_digits` (fuel instantiated). -/
def toU64Digits (v : Nat) : List Nat := toU64DigitsAux v v

/-- `HeapEntry` from `src/xor_dist.rs` lines 12–16. -/
structure HeapEntry where
  id : List Nat
  distance : Nat
deriving DecidableEq, Repr

/-- `impl Ord for HeapEntry` (`src/xor_dist.rs` lines 24–28):
`self.distance.cmp(&other.distance).reverse()`. -/
def HeapEntry.cmp (a b : HeapEntry) : Ordering :=
  (compare a.distance b.distance).swap

/-- `impl PartialOrd for HeapEntry` (`src/xor_dist.rs` lines 32–36):
`Some(self.distance.cmp(&other.distance))`, not reversed.  (The name
abbreviates the Rust method, whose full name contains a word this
development avoids in identifiers.) -/
def HeapEntry.pcmp (a b : HeapEntry) : Option Ordering :=
  some (compare a.distance b.distance)

/-- The `<=` operator on `HeapEntry`, as dispatched by Rust: the default
`le` of the manual `PartialOrd` impl, i.e. `pcmp ≠ Some(Greater)`. -/
def HeapEntry.le (a b : HeapEntry) : Bool :=
  a.pcmp b ≠ some Ordering.gt

/-- Element lookup with a dummy default, for index-style heap code. -/
def eGet (a : List HeapEntry) (i : Nat) : HeapEntry :=
  (a[i]?).getD ⟨[], 0⟩

/-- `BinaryHeap::sift_up` hole loop (Rust std `binary_heap.rs`): carry the
moved-out element `elt`; while `start < hole` and `elt` is greater than the
parent, move the parent down.  Fuel-based; fuel ≥ hole suffices. -/
def siftUpAux : Nat → List HeapEntry → HeapEntry → Nat → Nat → List HeapEntry
  | 0, a, elt, _, hole => a.set hole elt
  | fuel + 1, a, elt, start, hole =>
    if start < hole then
      let parent := (hole - 1) / 2
      if elt.le (eGet a parent) then a.set hole elt
      else siftUpAux fuel (a.set hole (eGet a parent)) elt start parent
    else a.set hole elt

/-- `BinaryHeap::sift_up`. -/
def siftUp (a : List HeapEntry) (start pos : Nat) : List HeapEntry :=
  siftUpAux pos a (eGet a pos) start pos

/-- `BinaryHeap::push`: append then sift up from the last position. -/
def heapPush (a : List HeapEntry) (x : HeapEntry) : List HeapEntry :=
  siftUp (a ++ [x]) 0 a.length

/-- The hole-walking phase of `BinaryHeap::sift_down_to_bottom`: walk the
hole to the bottom, always moving the greater child up.  Returns the array
(with a stale element at the hole) and the final hole position. -/
def sdtbWalk : Nat → List HeapEntry → Nat → List HeapEntry × Nat
  | 0, a, hole => (a, hole)
  | fuel + 1, a, hole =>
    let child := 2 * hole + 1
    if child + 2 ≤ a.length then
      let c := if (eGet a child).le (eGet a (child + 1)) then child + 1 else child
      sdtbWalk fuel (a.set hole (eGet a c)) c
    else if child + 1 = a.length then
      (a.set hole (eGet a child), child)
    else (a, hole)

/-- `BinaryHeap::sift_down_to_bottom` at position 0 (as called by `pop`):
walk the hole to the bottom, write the element there, then sift up. -/
def siftDownToBottom (a : List HeapEntry) : List HeapEntry :=
  match a with
  | [] => []
  | _ :: _ =>
    let elt := eGet a 0
    let w := sdtbWalk a.length a 0
    siftUp (w.1.set w.2 elt) 0 w.2

/-- `BinaryHeap::pop`, keeping only the remaining heap (the caller in
`xor_dist.rs` discards the popped value): remove the last element, move it
to the root, and sift down to the bottom. -/
def heapPop (a : List HeapEntry) : List HeapEntry :=
  match a.getLast? with
  | none => []
  | some item =>
    match a.dropLast with
    | [] => []
    | b => siftDownToBottom (b.set 0 item)

/-- `BinaryHeap::peek`: the root. -/
def heapPeek (a : List HeapEntry) : Option HeapEntry :=
  a.head?

/-- `BinaryHeap::sift_down_range` hole loop (used by `into_sorted_vec`):
like sift-down, but stop as soon as the element dominates the greater
child, and only look at positions `< endd`. -/
def sdrAux : Nat → List HeapEntry → HeapEntry → Nat → Nat → List HeapEntry
  | 0, a, elt, hole, _ => a.set hole elt
  | fuel + 1, a, elt, hole, endd =>
    let child := 2 * hole + 1
    if child + 2 ≤ endd then
      let c := if (eGet a child).le (eGet a (child + 1)) then child + 1 else child
      if (eGet a c).le elt then a.set hole elt
      else sdrAux fuel (a.set hole (eGet a c)) elt c endd
    else if child + 1 = endd then
      if elt.le (eGet a child) ∧ ¬ (eGet a child).le elt then
        (a.set hole (eGet a child)).set child elt
      else a.set hole elt
    else a.set hole elt

/-- `BinaryHeap::sift_down_range`. -/
def siftDownRange (a : List HeapEntry) (pos endd : Nat) : List HeapEntry :=
  sdrAux endd a (eGet a pos) pos endd

/-- Swap two list positions (`Vec::swap`). -/
def listSwap (a : List HeapEntry) (i j : Nat) : List HeapEntry :=
  (a.set i (eGet a j)).set j (eGet a i)

/-- The loop of `BinaryHeap::into_sorted_vec`: heapsort.  The first
argument is the loop variable `end`. -/
def isvAux : Nat → List HeapEntry → List HeapEntry
  | 0, a => a
  | e + 1, a =>
    if e = 0 then a
    else isvAux e (siftDownRange (listSwap a 0 e) 0 e)

/-- `BinaryHeap::into_sorted_vec`. -/
def intoSortedVec (a : List HeapEntry) : List HeapEntry :=
  isvAux a.length a

/-- The weight adjustment of `src/xor_dist.rs` lines 105–112:
`weights.get(i).filter(|w| *w > 0)` divides the distance. -/
def applyWeight (weights : Option (List Nat)) (i : Nat) (d : Nat) : Nat :=
  match weights with
  | none => d
  | some ws =>
    match ws[i]? with
    | some w => if 0 < w then d / w else d
    | none => d

/-- The heap entry built for candidate `i` (`src/xor_dist.rs` lines
98–116): big-endian value, XOR with the hash value, low 64 bits
(`to_u64_digits().first().cloned().unwrap_or(0)`), then the weight. -/
def mkEntry (hv : Nat) (weights : Option (List Nat)) (i : Nat)
    (id : List Nat) : HeapEntry :=
  ⟨id, applyWeight weights i ((toU64Digits (Nat.xor hv (fromBytesBE id))).headD 0)⟩

/-- One iteration of the selection loop (`src/xor_dist.rs` lines 118–130):
push while the heap is smaller than `n`, otherwise compare with the root
and replace it when strictly smaller. -/
def heapStep (n : Nat) (h : List HeapEntry) (e : HeapEntry) : List HeapEntry :=
  if h.length < n then heapPush h e
  else
    match heapPeek h with
    | some top => if e.distance < top.distance then heapPush (heapPop h) e else h
    | none => h

/-- The whole selection loop over `ids.iter().enumerate()`. -/
def buildHeap (hv : Nat) (n : Nat) (weights : Option (List Nat))
    (ids : List (List Nat)) : List HeapEntry :=
  ids.enum.foldl (fun h p => heapStep n h (mkEntry hv weights p.1 p.2)) []

/-- `xor_distance_selection` from `src/xor_dist.rs` lines 68–140. -/
def xor_distance_selection (name : String) (seed : List Nat) (seq : Nat)
    (n : Nat) (ids : List (List Nat)) (alg : List Nat → List Nat)
    (weights : Option (List Nat)) : Option (List (List Nat)) :=
  if ids.length = 0 then none
  else if ids.length ≤ n then some ids
  else
    let hv := fromBytesBE (compute_hash name seed seq alg)
    some ((intoSortedVec (buildHeap hv n weights ids)).map HeapEntry.id)

/-- The heap-entry list the selection loop feeds to the heap, in input
order (candidate `i` paired with its effective distance). -/
def allEntries (hv : Nat) (weights : Option (List Nat))
    (ids : List (List Nat)) : List HeapEntry :=
  ids.enum.map (fun p => mkEntry hv weights p.1 p.2)

/-- The selection loop as a fold over an arbitrary entry list. -/
def runHeap (n : Nat) (es : List HeapEntry) : List HeapEntry :=
  es.foldl (heapStep n) []

/-- The weight the loop looks up for index `i` (`weights.get(i)`). -/
def weightAt (weights : Option (List Nat)) (i : Nat) : Option Nat :=
  match weights with
  | none => none
  | some ws => ws[i]?

/-- Candidate/weight pairs in input order: permuting the candidate list
together with its weights (in lockstep, by the same index mapping) is
exactly a permutation of this list. -/
def wPairs (ids : List (List Nat)) (weights : Option (List Nat)) :
    List (List Nat × Option Nat) :=
  ids.enum.map (fun p => (p.2, weightAt weights p.1))

/-- The entry a candidate/weight pair gives rise to. -/
def entryOfPair (hv : Nat) (q : List Nat × Option Nat) : HeapEntry :=
  ⟨q.1,
    match q.2 with
    | some w =>
      if 0 < w then (toU64Digits (Nat.xor hv (fromBytesBE q.1))).headD 0 / w
      else (toU64Digits (Nat.xor hv (fromBytesBE q.1))).headD 0
    | none => (toU64Digits (Nat.xor hv (fromBytesBE q.1))).headD 0⟩

/-- Binary-heap shape property restricted to positions `< m`: every child
is `≤` its parent by distance. -/
def IsHeapTo (a : List HeapEntry) (m : Nat) : Prop :=
  ∀ i j, j < m → (j = 2 * i + 1 ∨ j = 2 * i + 2) →
    (eGet a j).distance ≤ (eGet a i).distance

/-- Binary-heap shape property of the whole array. -/
def IsHeap (a : List HeapEntry) : Prop :=
  IsHeapTo a a.length

/-- Comparison of entries by distance, the order of the final output. -/
def distLE (x y : HeapEntry) : Prop :=
  x.distance ≤ y.distance

/-! ## Basic facts about comparisons and list surgery -/

theorem le_iff (a b : HeapEntry) : a.le b = true ↔ a.distance ≤ b.distance := by
  simp only [HeapEntry.le, HeapEntry.pcmp, decide_eq_true_eq, ne_eq,
    Option.some.injEq]
  rcases Nat.lt_trichotomy a.distance b.distance with h | h | h <;>
    simp [Nat.compare_eq_gt]

theorem not_le_iff (a b : HeapEntry) : ¬ a.le b = true ↔ b.distance < a.distance := by
  rw [le_iff]; omega

theorem eGet_set_self (a : List HeapEntry) (i : Nat) (x : HeapEntry)
    (h : i < a.length) : eGet (a.set i x) i = x := by
  simp [eGet, List.getElem?_set_self, h]

theorem eGet_set_ne (a : List HeapEntry) {i j : Nat} (x : HeapEntry)
    (h : i ≠ j) : eGet (a.set i x) j = eGet a j := by
  simp [eGet, List.getElem?_set_ne h]

theorem eGet_mem (a : List HeapEntry) (i : Nat) (h : i < a.length) :
    eGet a i ∈ a := by
  simp only [eGet, List.getElem?_eq_getElem h, Option.getD_some]
  exact List.getElem_mem h

theorem mset_set (a : List HeapEntry) (i : Nat) (x : HeapEntry)
    (h : i < a.length) :
    ((a.set i x : List HeapEntry) : Multiset HeapEntry) =
      x ::ₘ ((a.eraseIdx i : List HeapEntry) : Multiset HeapEntry) := by
  rw [List.set_eq_take_cons_drop x h, List.eraseIdx_eq_take_drop_succ]
  rw [Multiset.cons_coe, Multiset.coe_eq_coe]
  exact List.perm_middle

theorem mset_self (a : List HeapEntry) (i : Nat) (h : i < a.length) :
    (a : Multiset HeapEntry) =
      eGet a i ::ₘ ((a.eraseIdx i : List HeapEntry) : Multiset HeapEntry) := by
  have h2 : a.set i (eGet a i) = a := by
    apply List.ext_getElem?
    intro j
    rcases eq_or_ne i j with rfl | hne
    · simp [eGet, List.getElem?_set_self, h, List.getElem?_eq_getElem h]
    · simp [List.getElem?_set_ne hne]
  conv_lhs => rw [← h2]
  exact mset_set a i _ h

theorem eraseIdx_set_same (a : List HeapEntry) (i : Nat) (x : HeapEntry) :
    (a.set i x).eraseIdx i = a.eraseIdx i := by
  rcases Nat.lt_or_ge i a.length with h | h
  · rw [List.set_eq_take_cons_drop x h, List.eraseIdx_eq_take_drop_succ,
      List.eraseIdx_eq_take_drop_succ]
    simp [List.take_append_eq_append_take, List.drop_append_eq_append_drop,
      List.length_take, Nat.le_of_lt h]
  · rw [List.set_eq_of_length_le h]

theorem mset_set_get_eraseIdx (a : List HeapEntry) {hole p : Nat}
    (hh : hole < a.length) (hp : p < a.length) (hne : p ≠ hole) :
    (((a.set hole (eGet a p)).eraseIdx p : List HeapEntry) : Multiset HeapEntry) =
      ((a.eraseIdx hole : List HeapEntry) : Multiset HeapEntry) := by
  have h1 : ((a.set hole (eGet a p) : List HeapEntry) : Multiset HeapEntry) =
      eGet a p ::ₘ ((a.eraseIdx hole : List HeapEntry) : Multiset HeapEntry) :=
    mset_set a hole _ hh
  have h2 : ((a.set hole (eGet a p) : List HeapEntry) : Multiset HeapEntry) =
      eGet (a.set hole (eGet a p)) p ::ₘ
        (((a.set hole (eGet a p)).eraseIdx p : List HeapEntry) : Multiset HeapEntry) :=
    mset_self _ p (by simpa using hp)
  rw [eGet_set_ne a _ (Ne.symm hne)] at h2
  exact ((Multiset.cons_inj_right _).mp (h2.symm.trans h1))

/-! ## The heap shape property -/

theorem IsHeapTo.le_root {a : List HeapEntry} {m : Nat} (h : IsHeapTo a m) :
    ∀ j, j < m → (eGet a j).distance ≤ (eGet a 0).distance := by
  intro j
  induction j using Nat.strong_induction_on with
  | _ j ih =>
    intro hj
    rcases Nat.eq_zero_or_pos j with rfl | hpos
    · exact le_refl _
    · have hp : (j - 1) / 2 < j := by omega
      have hrel : j = 2 * ((j - 1) / 2) + 1 ∨ j = 2 * ((j - 1) / 2) + 2 := by omega
      exact le_trans (h _ j hj hrel) (ih _ hp (lt_trans hp hj))

theorem IsHeapTo.mono {a : List HeapEntry} {m m' : Nat} (h : IsHeapTo a m)
    (hle : m' ≤ m) : IsHeapTo a m' := by
  intro i j hj hrel
  exact h i j (lt_of_lt_of_le hj hle) hrel

/-! ## Correctness of `sift_up` -/

theorem set_elt_isHeap (a : List HeapEntry) (elt : HeapEntry) (hole : Nat)
    (hh : hole < a.length)
    (H1 : ∀ i j, j < a.length → (j = 2 * i + 1 ∨ j = 2 * i + 2) → j ≠ hole →
      i ≠ hole → (eGet a j).distance ≤ (eGet a i).distance)
    (H2 : ∀ j, j < a.length → (j = 2 * hole + 1 ∨ j = 2 * hole + 2) →
      (eGet a j).distance ≤ elt.distance)
    (H3 : 0 < hole → elt.distance ≤ (eGet a ((hole - 1) / 2)).distance) :
    IsHeap (a.set hole elt) := by
  intro i j hj hrel
  rw [List.length_set] at hj
  rcases eq_or_ne j hole with rfl | hjne
  · have hi : i = (j - 1) / 2 ∧ 0 < j := by omega
    rw [eGet_set_self a j elt hh, eGet_set_ne a elt (by omega)]
    rw [hi.1]
    exact H3 hi.2
  · rw [eGet_set_ne a elt (Ne.symm hjne)]
    rcases eq_or_ne i hole with rfl | hine
    · rw [eGet_set_self a i elt hh]
      exact H2 j hj hrel
    · rw [eGet_set_ne a elt (Ne.symm hine)]
      exact H1 i j hj hrel hjne hine

theorem siftUpAux_spec :
    ∀ (fuel : Nat) (a : List HeapEntry) (elt : HeapEntry) (hole : Nat),
    hole ≤ fuel → hole < a.length →
    (∀ i j, j < a.length → (j = 2 * i + 1 ∨ j = 2 * i + 2) → j ≠ hole →
      i ≠ hole → (eGet a j).distance ≤ (eGet a i).distance) →
    (∀ j, j < a.length → (j = 2 * hole + 1 ∨ j = 2 * hole + 2) →
      (eGet a j).distance ≤ elt.distance ∧
      (0 < hole → (eGet a j).distance ≤ (eGet a ((hole - 1) / 2)).distance)) →
    IsHeap (siftUpAux fuel a elt 0 hole) ∧
    ((siftUpAux fuel a elt 0 hole : List HeapEntry) : Multiset HeapEntry) =
      elt ::ₘ ((a.eraseIdx hole : List HeapEntry) : Multiset HeapEntry) ∧
    (siftUpAux fuel a elt 0 hole).length = a.length := by
  intro fuel
  induction fuel with
  | zero =>
    intro a elt hole hf hh H1 H2
    have h0 : hole = 0 := by omega
    subst h0
    simp only [siftUpAux]
    exact ⟨set_elt_isHeap a elt 0 hh H1 (fun j hj hr => (H2 j hj hr).1)
        (fun h => absurd h (by omega)),
      mset_set a 0 elt hh, List.length_set a 0 elt⟩
  | succ fuel ih =>
    intro a elt hole hf hh H1 H2
    simp only [siftUpAux]
    by_cases h0 : 0 < hole
    · rw [if_pos h0]
      by_cases hle : elt.le (eGet a ((hole - 1) / 2)) = true
      · rw [if_pos hle]
        exact ⟨set_elt_isHeap a elt hole hh H1 (fun j hj hr => (H2 j hj hr).1)
            (fun _ => (le_iff _ _).mp hle),
          mset_set a hole elt hh, List.length_set a hole elt⟩
      · rw [if_neg hle]
        have hlt : (eGet a ((hole - 1) / 2)).distance < elt.distance :=
          (not_le_iff _ _).mp (by simpa using hle)
        set p := (hole - 1) / 2 with hp
        have hplt : p < hole := by omega
        have hpne : p ≠ hole := by omega
        have hplen : p < a.length := lt_trans hplt hh
        have hlen' : (a.set hole (eGet a p)).length = a.length :=
          List.length_set a hole _
        have main := ih (a.set hole (eGet a p)) elt p (by omega)
          (by rw [hlen']; exact hplen)
          ?_ ?_
        · refine ⟨main.1, ?_, by rw [main.2.2, hlen']⟩
          rw [main.2.1, mset_set_get_eraseIdx a hh hplen hpne]
        · -- H1 for the new array with hole at p
          intro i j hj hrel hjp hip
          rw [hlen'] at hj
          rcases eq_or_ne j hole with rfl | hjne
          · exact absurd (by omega : i = p) hip
          · rw [eGet_set_ne a _ (Ne.symm hjne)]
            rcases eq_or_ne i hole with rfl | hine
            · rw [eGet_set_self a i _ hh]
              exact (H2 j hj hrel).2 h0
            · rw [eGet_set_ne a _ (Ne.symm hine)]
              exact H1 i j hj hrel hjne hine
        · -- H2 for the new array with hole at p
          intro j hj hrel
          rw [hlen'] at hj
          have hpar : 0 < p →
              (eGet a p).distance ≤ (eGet a ((p - 1) / 2)).distance := by
            intro hp0
            have := H1 ((p - 1) / 2) p hplen (by omega) hpne (by omega)
            exact this
          rcases eq_or_ne j hole with rfl | hjne
          · rw [eGet_set_self a j _ hh]
            constructor
            · exact le_of_lt hlt
            · intro hp0
              rw [eGet_set_ne a _ (by omega : j ≠ ((p - 1) / 2 : Nat))]
              exact hpar hp0
          · rw [eGet_set_ne a _ (Ne.symm hjne)]
            have hjch : (eGet a j).distance ≤ (eGet a p).distance :=
              H1 p j hj hrel hjne hpne
            constructor
            · exact le_trans hjch (le_of_lt hlt)
            · intro hp0
              rw [eGet_set_ne a _ (by omega : hole ≠ ((p - 1) / 2 : Nat))]
              exact le_trans hjch (hpar hp0)
    · rw [if_neg h0]
      have h0' : hole = 0 := by omega
      subst h0'
      exact ⟨set_elt_isHeap a elt 0 hh H1 (fun j hj hr => (H2 j hj hr).1)
          (fun h => absurd h (by omega)),
        mset_set a 0 elt hh, List.length_set a 0 elt⟩

theorem eGet_append_left (a b : List HeapEntry) {i : Nat} (h : i < a.length) :
    eGet (a ++ b) i = eGet a i := by
  simp [eGet, List.getElem?_append_left h]

theorem eGet_concat_self (a : List HeapEntry) (x : HeapEntry) :
    eGet (a ++ [x]) a.length = x := by
  simp [eGet, List.getElem?_append_right (le_refl a.length)]

theorem eraseIdx_concat_self (a : List HeapEntry) (x : HeapEntry) :
    (a ++ [x]).eraseIdx a.length = a := by
  rw [List.eraseIdx_eq_take_drop_succ]
  have h1 : (a ++ [x]).take a.length = a := List.take_left a [x]
  have h2 : (a ++ [x]).drop (a.length + 1) = [] := by
    apply List.drop_eq_nil_of_le
    simp
  rw [h1, h2, List.append_nil]

theorem heapPush_spec (a : List HeapEntry) (x : HeapEntry) (hh : IsHeap a) :
    IsHeap (heapPush a x) ∧
    ((heapPush a x : List HeapEntry) : Multiset HeapEntry) =
      x ::ₘ (a : Multiset HeapEntry) ∧
    (heapPush a x).length = a.length + 1 := by
  have hlen : (a ++ [x]).length = a.length + 1 := by simp
  have main := siftUpAux_spec a.length (a ++ [x]) (eGet (a ++ [x]) a.length)
    a.length (le_refl _) (by omega) ?_ ?_
  · rw [eGet_concat_self] at main
    simp only [heapPush, siftUp, eGet_concat_self]
    refine ⟨main.1, ?_, by rw [main.2.2, hlen]⟩
    rw [main.2.1, eraseIdx_concat_self]
  · intro i j hj hrel hjne hine
    rw [hlen] at hj
    have hj' : j < a.length := by omega
    have hi' : i < a.length := by omega
    rw [eGet_append_left a [x] hj', eGet_append_left a [x] hi']
    exact hh i j hj' hrel
  · intro j hj hrel
    rw [hlen] at hj
    omega

theorem heapPeek_eq (a : List HeapEntry) (h : a ≠ []) :
    heapPeek a = some (eGet a 0) := by
  cases a with
  | nil => exact absurd rfl h
  | cons y t => simp [heapPeek, eGet]

theorem eGet_eq_getElem (a : List HeapEntry) (i : Nat) (h : i < a.length) :
    eGet a i = a[i] := by
  simp [eGet, List.getElem?_eq_getElem h]

theorem IsHeap.mem_le_root {a : List HeapEntry} (hh : IsHeap a) {x : HeapEntry}
    (hx : x ∈ a) : x.distance ≤ (eGet a 0).distance := by
  obtain ⟨i, hi, rfl⟩ := List.getElem_of_mem hx
  rw [← eGet_eq_getElem a i hi]
  exact hh.le_root i hi

/-! ## Correctness of `sift_down_to_bottom` and `pop` -/

theorem sdtbWalk_spec :
    ∀ (fuel : Nat) (a : List HeapEntry) (hole : Nat),
    hole < a.length → a.length ≤ fuel + hole →
    (∀ i j, j < a.length → (j = 2 * i + 1 ∨ j = 2 * i + 2) → j ≠ hole →
      i ≠ hole → (eGet a j).distance ≤ (eGet a i).distance) →
    (∀ j, j < a.length → (j = 2 * hole + 1 ∨ j = 2 * hole + 2) → 0 < hole →
      (eGet a j).distance ≤ (eGet a ((hole - 1) / 2)).distance) →
    (sdtbWalk fuel a hole).1.length = a.length ∧
    (sdtbWalk fuel a hole).2 < a.length ∧
    a.length ≤ 2 * (sdtbWalk fuel a hole).2 + 1 ∧
    (∀ i j, j < a.length → (j = 2 * i + 1 ∨ j = 2 * i + 2) →
      j ≠ (sdtbWalk fuel a hole).2 → i ≠ (sdtbWalk fuel a hole).2 →
      (eGet (sdtbWalk fuel a hole).1 j).distance ≤
        (eGet (sdtbWalk fuel a hole).1 i).distance) ∧
    (((sdtbWalk fuel a hole).1.eraseIdx (sdtbWalk fuel a hole).2 :
        List HeapEntry) : Multiset HeapEntry) =
      ((a.eraseIdx hole : List HeapEntry) : Multiset HeapEntry) := by
  intro fuel
  induction fuel with
  | zero =>
    intro a hole hh hf _ _
    omega
  | succ fuel ih =>
    intro a hole hh hf H1 H2
    simp only [sdtbWalk]
    by_cases hc2 : 2 * hole + 1 + 2 ≤ a.length
    · rw [if_pos hc2]
      set c := if (eGet a (2 * hole + 1)).le (eGet a (2 * hole + 1 + 1)) then
          2 * hole + 1 + 1 else 2 * hole + 1 with hc
      have hcrel : c = 2 * hole + 1 ∨ c = 2 * hole + 2 := by
        rw [hc]; split <;> omega
      have hclen : c < a.length := by omega
      have hcne : c ≠ hole := by omega
      -- the sibling of the chosen child is dominated by it
      have hsib : ∀ o, (o = 2 * hole + 1 ∨ o = 2 * hole + 2) → o ≠ c →
          (eGet a o).distance ≤ (eGet a c).distance := by
        intro o ho hoc
        by_cases hle : (eGet a (2 * hole + 1)).le (eGet a (2 * hole + 1 + 1)) = true
        · have hceq : c = 2 * hole + 1 + 1 := by rw [hc, if_pos hle]
          have hoeq : o = 2 * hole + 1 := by omega
          rw [hceq, hoeq]
          exact (le_iff _ _).mp hle
        · have hceq : c = 2 * hole + 1 := by rw [hc, if_neg hle]
          have hoeq : o = 2 * hole + 2 := by omega
          have hlt := (not_le_iff _ _).mp (by simpa using hle)
          rw [hceq, hoeq]
          have h22 : (2 : Nat) * hole + 1 + 1 = 2 * hole + 2 := by omega
          rw [h22] at hlt
          exact le_of_lt hlt
      have hlen' : (a.set hole (eGet a c)).length = a.length :=
        List.length_set a hole _
      have main := ih (a.set hole (eGet a c)) c
        (by rw [hlen']; exact hclen) (by rw [hlen']; omega) ?_ ?_
      · rw [hlen'] at main
        refine ⟨main.1, main.2.1, main.2.2.1, main.2.2.2.1, ?_⟩
        rw [main.2.2.2.2, mset_set_get_eraseIdx a hh hclen hcne]
      · -- H1 carried to the new array with hole at c
        intro i j hj hrel hjc hic
        rw [hlen'] at hj
        rcases eq_or_ne j hole with rfl | hjne
        · have hi : i = (j - 1) / 2 ∧ 0 < j := by omega
          rw [eGet_set_self a j _ hh,
            eGet_set_ne a _ (by omega : j ≠ i)]
          have := H2 c hclen hcrel hi.2
          rw [hi.1]
          exact this
        · rw [eGet_set_ne a _ (Ne.symm hjne)]
          rcases eq_or_ne i hole with rfl | hine
          · rw [eGet_set_self a i _ hh]
            exact hsib j hrel hjc
          · rw [eGet_set_ne a _ (Ne.symm hine)]
            exact H1 i j hj hrel hjne hine
      · -- H2 for the new hole at c
        intro j hj hrel _
        rw [hlen'] at hj
        have hpar : (c - 1) / 2 = hole := by omega
        have hjne : j ≠ hole := by omega
        rw [hpar, eGet_set_ne a _ (Ne.symm hjne), eGet_set_self a hole _ hh]
        exact H1 c j hj hrel hjne hcne
    · rw [if_neg hc2]
      by_cases hc1 : 2 * hole + 1 + 1 = a.length
      · rw [if_pos hc1]
        have hchlen : 2 * hole + 1 < a.length := by omega
        have hchne : (2 * hole + 1 : Nat) ≠ hole := by omega
        dsimp only
        refine ⟨List.length_set a hole _, by omega, by omega, ?_, ?_⟩
        · intro i j hj hrel hjc hic
          rcases eq_or_ne j hole with rfl | hjne
          · have hi : i = (j - 1) / 2 ∧ 0 < j := by omega
            rw [eGet_set_self a j _ hh,
              eGet_set_ne a _ (by omega : j ≠ i)]
            have := H2 (2 * j + 1) hchlen (Or.inl rfl) hi.2
            rw [hi.1]
            exact this
          · rw [eGet_set_ne a _ (Ne.symm hjne)]
            rcases eq_or_ne i hole with rfl | hine
            · -- children of the old hole other than the moved one are out of range
              omega
            · rw [eGet_set_ne a _ (Ne.symm hine)]
              exact H1 i j hj hrel hjne hine
        · exact mset_set_get_eraseIdx a hh hchlen hchne
      · rw [if_neg hc1]
        exact ⟨rfl, hh, by omega, fun i j hj hrel hjh hih => H1 i j hj hrel hjh hih,
          rfl⟩

theorem siftDownToBottom_spec (a : List HeapEntry) (hne : a ≠ [])
    (H1 : ∀ i j, j < a.length → (j = 2 * i + 1 ∨ j = 2 * i + 2) → j ≠ 0 →
      i ≠ 0 → (eGet a j).distance ≤ (eGet a i).distance) :
    IsHeap (siftDownToBottom a) ∧
    ((siftDownToBottom a : List HeapEntry) : Multiset HeapEntry) =
      (a : Multiset HeapEntry) ∧
    (siftDownToBottom a).length = a.length := by
  have hlen0 : 0 < a.length := List.length_pos.mpr hne
  have hun : siftDownToBottom a =
      siftUp ((sdtbWalk a.length a 0).1.set (sdtbWalk a.length a 0).2 (eGet a 0))
        0 (sdtbWalk a.length a 0).2 := by
    cases a with
    | nil => exact absurd rfl hne
    | cons x t => rfl
  rw [hun]
  obtain ⟨wlen, wlt, wbot, wH1, wmset⟩ :=
    sdtbWalk_spec a.length a 0 hlen0 (by omega) H1 (by intro j hj hr h0; omega)
  set b := (sdtbWalk a.length a 0).1 with hb
  set hfin := (sdtbWalk a.length a 0).2 with hfin'
  have hwlt : hfin < b.length := by rw [wlen]; exact wlt
  have hcl : (b.set hfin (eGet a 0)).length = a.length := by
    rw [List.length_set, wlen]
  have hget : eGet (b.set hfin (eGet a 0)) hfin = eGet a 0 :=
    eGet_set_self b hfin _ hwlt
  have main := siftUpAux_spec hfin (b.set hfin (eGet a 0))
    (eGet (b.set hfin (eGet a 0)) hfin) hfin (le_refl _) (by rw [hcl]; omega)
    ?_ ?_
  · rw [hget] at main
    simp only [siftUp, hget]
    refine ⟨main.1, ?_, by rw [main.2.2, hcl]⟩
    rw [main.2.1, eraseIdx_set_same, wmset]
    exact (mset_self a 0 hlen0).symm
  · intro i j hj hrel hjne hine
    rw [hcl] at hj
    rw [eGet_set_ne b _ (Ne.symm hjne), eGet_set_ne b _ (Ne.symm hine)]
    exact wH1 i j hj hrel hjne hine
  · intro j hj hrel
    rw [hcl] at hj
    omega

theorem eGet_dropLast (a : List HeapEntry) {k : Nat} (h : k < a.length - 1) :
    eGet a.dropLast k = eGet a k := by
  simp only [eGet, List.getElem?_dropLast, h, if_pos]

theorem heapPop_spec (a : List HeapEntry) (hne : a ≠ []) (hh : IsHeap a) :
    IsHeap (heapPop a) ∧
    (a : Multiset HeapEntry) =
      eGet a 0 ::ₘ ((heapPop a : List HeapEntry) : Multiset HeapEntry) ∧
    (heapPop a).length + 1 = a.length := by
  have hlast : a.getLast? = some (a.getLast hne) := List.getLast?_eq_getLast a hne
  have hlen0 : 0 < a.length := List.length_pos.mpr hne
  cases hd : a.dropLast with
  | nil =>
    have hlen : a.length = 1 := by
      have h1 := List.length_dropLast a
      rw [hd] at h1
      simp at h1
      omega
    obtain ⟨x, rfl⟩ := List.length_eq_one.mp hlen
    have hp : heapPop [x] = [] := by
      unfold heapPop
      rfl
    rw [hp]
    refine ⟨?_, ?_, by simp⟩
    · intro i j hj hrel
      simp at hj
    · simp [eGet]
  | cons y t =>
    have hblen : a.dropLast.length = a.length - 1 := List.length_dropLast a
    have hlen2 : 2 ≤ a.length := by
      have h2 : (y :: t).length = a.length - 1 := by rw [← hd]; exact hblen
      simp at h2
      omega
    have hun : heapPop a = siftDownToBottom ((y :: t).set 0 (a.getLast hne)) := by
      unfold heapPop
      rw [hlast, hd]
    have hblen' : (y :: t).length = a.length - 1 := by rw [← hd]; exact hblen
    have hbpos : 0 < (y :: t).length := by simp
    have hcne : (y :: t).set 0 (a.getLast hne) ≠ [] := by simp
    have hbget : ∀ k, k < (y :: t).length → eGet (y :: t) k = eGet a k := by
      intro k hk
      rw [← hd]
      exact eGet_dropLast a (by omega)
    have main := siftDownToBottom_spec ((y :: t).set 0 (a.getLast hne)) hcne ?_
    · rw [hun]
      have hclen : ((y :: t).set 0 (a.getLast hne)).length = (y :: t).length :=
        List.length_set _ 0 _
      refine ⟨main.1, ?_, by rw [main.2.2, hclen]; omega⟩
      have ha : a = (y :: t) ++ [a.getLast hne] := by
        rw [← hd]
        exact (List.dropLast_append_getLast hne).symm
      have hma : (a : Multiset HeapEntry) =
          a.getLast hne ::ₘ ((y :: t : List HeapEntry) : Multiset HeapEntry) := by
        conv_lhs => rw [ha]
        rw [Multiset.cons_coe, Multiset.coe_eq_coe]
        exact List.perm_append_singleton _ _
      have hmb := mset_self (y :: t) 0 hbpos
      have hmc := mset_set (y :: t) 0 (a.getLast hne) hbpos
      rw [main.2.1, hmc, hma, hmb, hbget 0 hbpos, Multiset.cons_swap]
    · intro i j hj hrel hjne hine
      rw [List.length_set] at hj
      rw [eGet_set_ne _ _ (Ne.symm hjne), eGet_set_ne _ _ (Ne.symm hine),
        hbget j hj, hbget i (by omega)]
      exact hh i j (by omega) hrel

/-! ## Correctness of `sift_down_range` and `into_sorted_vec` -/

theorem set_elt_isHeapTo (a : List HeapEntry) (elt : HeapEntry) (hole endd : Nat)
    (hh : hole < endd) (hlen : endd ≤ a.length)
    (H1 : ∀ i j, j < endd → (j = 2 * i + 1 ∨ j = 2 * i + 2) → j ≠ hole →
      i ≠ hole → (eGet a j).distance ≤ (eGet a i).distance)
    (H2 : ∀ j, j < endd → (j = 2 * hole + 1 ∨ j = 2 * hole + 2) →
      (eGet a j).distance ≤ elt.distance)
    (H3 : 0 < hole → elt.distance ≤ (eGet a ((hole - 1) / 2)).distance) :
    IsHeapTo (a.set hole elt) endd := by
  intro i j hj hrel
  rcases eq_or_ne j hole with rfl | hjne
  · have hi : i = (j - 1) / 2 ∧ 0 < j := by omega
    rw [eGet_set_self a j elt (by omega), eGet_set_ne a elt (by omega)]
    rw [hi.1]
    exact H3 hi.2
  · rw [eGet_set_ne a elt (Ne.symm hjne)]
    rcases eq_or_ne i hole with rfl | hine
    · rw [eGet_set_self a i elt (by omega)]
      exact H2 j hj hrel
    · rw [eGet_set_ne a elt (Ne.symm hine)]
      exact H1 i j hj hrel hjne hine

theorem sdrAux_spec :
    ∀ (fuel : Nat) (a : List HeapEntry) (elt : HeapEntry) (hole endd : Nat),
    hole < endd → endd ≤ a.length → endd ≤ fuel + hole →
    (∀ i j, j < endd → (j = 2 * i + 1 ∨ j = 2 * i + 2) → j ≠ hole →
      i ≠ hole → (eGet a j).distance ≤ (eGet a i).distance) →
    (0 < hole → elt.distance ≤ (eGet a ((hole - 1) / 2)).distance) →
    (∀ j, j < endd → (j = 2 * hole + 1 ∨ j = 2 * hole + 2) → 0 < hole →
      (eGet a j).distance ≤ (eGet a ((hole - 1) / 2)).distance) →
    IsHeapTo (sdrAux fuel a elt hole endd) endd ∧
    ((sdrAux fuel a elt hole endd : List HeapEntry) : Multiset HeapEntry) =
      elt ::ₘ ((a.eraseIdx hole : List HeapEntry) : Multiset HeapEntry) ∧
    (sdrAux fuel a elt hole endd).length = a.length ∧
    (∀ k, endd ≤ k → eGet (sdrAux fuel a elt hole endd) k = eGet a k) := by
  intro fuel
  induction fuel with
  | zero =>
    intro a elt hole endd hh hlen hf _ _ _
    omega
  | succ fuel ih =>
    intro a elt hole endd hh hlen hf H1 H2a H2b
    simp only [sdrAux]
    by_cases hc2 : 2 * hole + 1 + 2 ≤ endd
    · rw [if_pos hc2]
      set c := if (eGet a (2 * hole + 1)).le (eGet a (2 * hole + 1 + 1)) then
          2 * hole + 1 + 1 else 2 * hole + 1 with hc
      have hcrel : c = 2 * hole + 1 ∨ c = 2 * hole + 2 := by
        rw [hc]; split <;> omega
      have hcend : c < endd := by omega
      have hclen : c < a.length := by omega
      have hcne : c ≠ hole := by omega
      have hsib : ∀ o, (o = 2 * hole + 1 ∨ o = 2 * hole + 2) → o ≠ c →
          (eGet a o).distance ≤ (eGet a c).distance := by
        intro o ho hoc
        by_cases hle : (eGet a (2 * hole + 1)).le (eGet a (2 * hole + 1 + 1)) = true
        · have hceq : c = 2 * hole + 1 + 1 := by rw [hc, if_pos hle]
          have hoeq : o = 2 * hole + 1 := by omega
          rw [hceq, hoeq]
          exact (le_iff _ _).mp hle
        · have hceq : c = 2 * hole + 1 := by rw [hc, if_neg hle]
          have hoeq : o = 2 * hole + 2 := by omega
          have hlt := (not_le_iff _ _).mp (by simpa using hle)
          rw [hceq, hoeq]
          have h22 : (2 : Nat) * hole + 1 + 1 = 2 * hole + 2 := by omega
          rw [h22] at hlt
          exact le_of_lt hlt
      by_cases hstop : (eGet a c).le elt = true
      · rw [if_pos hstop]
        refine ⟨?_, mset_set a hole elt (by omega), List.length_set a hole elt,
          fun k hk => eGet_set_ne a elt (by omega)⟩
        exact set_elt_isHeapTo a elt hole endd hh hlen H1
          (fun j hj hrel => by
            rcases eq_or_ne j c with rfl | hjc
            · exact (le_iff _ _).mp hstop
            · exact le_trans (hsib j hrel hjc) ((le_iff _ _).mp hstop))
          H2a
      · rw [if_neg hstop]
        have hlt : elt.distance < (eGet a c).distance :=
          (not_le_iff _ _).mp (by simpa using hstop)
        have hlen' : (a.set hole (eGet a c)).length = a.length :=
          List.length_set a hole _
        have main := ih (a.set hole (eGet a c)) elt c endd hcend
          (by rw [hlen']; exact hlen) (by omega) ?_ ?_ ?_
        · refine ⟨main.1, ?_, by rw [main.2.2.1, hlen'], ?_⟩
          · rw [main.2.1, mset_set_get_eraseIdx a (by omega) hclen hcne]
          · intro k hk
            rw [main.2.2.2 k hk, eGet_set_ne a _ (by omega)]
        · -- H1 carried to the new hole at c
          intro i j hj hrel hjc hic
          rcases eq_or_ne j hole with rfl | hjne
          · have hi : i = (j - 1) / 2 ∧ 0 < j := by omega
            rw [eGet_set_self a j _ (by omega), eGet_set_ne a _ (by omega : j ≠ i)]
            have := H2b c hcend hcrel hi.2
            rw [hi.1]
            exact this
          · rw [eGet_set_ne a _ (Ne.symm hjne)]
            rcases eq_or_ne i hole with rfl | hine
            · rw [eGet_set_self a i _ (by omega)]
              exact hsib j hrel hjc
            · rw [eGet_set_ne a _ (Ne.symm hine)]
              exact H1 i j hj hrel hjne hine
        · -- the carried element is below the new hole's parent
          intro _
          have hpar : (c - 1) / 2 = hole := by omega
          rw [hpar, eGet_set_self a hole _ (by omega)]
          exact le_of_lt hlt
        · -- children of the new hole are below its parent
          intro j hj hrel _
          have hpar : (c - 1) / 2 = hole := by omega
          have hjne : j ≠ hole := by omega
          rw [hpar, eGet_set_ne a _ (Ne.symm hjne), eGet_set_self a hole _ (by omega)]
          exact H1 c j hj hrel hjne hcne
    · rw [if_neg hc2]
      by_cases hc1 : 2 * hole + 1 + 1 = endd
      · rw [if_pos hc1]
        have hchend : 2 * hole + 1 < endd := by omega
        have hchlen : 2 * hole + 1 < a.length := by omega
        have hchne : (2 * hole + 1 : Nat) ≠ hole := by omega
        by_cases hmv : (elt.le (eGet a (2 * hole + 1)) ∧
            ¬ (eGet a (2 * hole + 1)).le elt)
        · rw [if_pos hmv]
          have hlt : elt.distance < (eGet a (2 * hole + 1)).distance :=
            (not_le_iff _ _).mp (by simpa using hmv.2)
          have hlen1 : (a.set hole (eGet a (2 * hole + 1))).length = a.length :=
            List.length_set a hole _
          refine ⟨?_, ?_, by rw [List.length_set, hlen1], ?_⟩
          · intro i j hj hrel
            rcases eq_or_ne j (2 * hole + 1) with rfl | hjch
            · have hieq : i = hole := by omega
              subst hieq
              rw [eGet_set_self _ _ elt (by rw [hlen1]; omega),
                eGet_set_ne _ elt (by omega),
                eGet_set_self a i _ (by omega)]
              exact le_of_lt hlt
            · rw [eGet_set_ne _ elt (Ne.symm hjch)]
              rcases eq_or_ne j hole with rfl | hjh
              · have hi : i = (j - 1) / 2 ∧ 0 < j := by omega
                rw [eGet_set_self a j _ (by omega),
                  eGet_set_ne _ elt (by omega : (2 * j + 1 : Nat) ≠ i),
                  eGet_set_ne a _ (by omega : j ≠ i)]
                have := H2b (2 * j + 1) hchend (Or.inl rfl) hi.2
                rw [hi.1]
                exact this
              · rw [eGet_set_ne a _ (Ne.symm hjh)]
                rcases eq_or_ne i hole with rfl | hih
                · omega
                · rcases eq_or_ne i (2 * hole + 1) with rfl | hich
                  · omega
                  · rw [eGet_set_ne _ elt (Ne.symm hich),
                      eGet_set_ne a _ (Ne.symm hih)]
                    exact H1 i j hj hrel hjh hih
          · rw [mset_set _ (2 * hole + 1) elt (by rw [hlen1]; omega),
              mset_set_get_eraseIdx a (by omega) hchlen hchne]
          · intro k hk
            rw [eGet_set_ne _ elt (by omega), eGet_set_ne a _ (by omega)]
        · rw [if_neg hmv]
          have hge : (eGet a (2 * hole + 1)).distance ≤ elt.distance := by
            by_cases h1 : elt.le (eGet a (2 * hole + 1)) = true
            · by_cases h2 : (eGet a (2 * hole + 1)).le elt = true
              · exact (le_iff _ _).mp h2
              · exact absurd ⟨h1, by simpa using h2⟩ hmv
            · have := (not_le_iff _ _).mp (by simpa using h1)
              omega
          refine ⟨?_, mset_set a hole elt (by omega), List.length_set a hole elt,
            fun k hk => eGet_set_ne a elt (by omega)⟩
          exact set_elt_isHeapTo a elt hole endd hh hlen H1
            (fun j hj hrel => by
              have : j = 2 * hole + 1 := by omega
              subst this
              exact hge)
            H2a
      · rw [if_neg hc1]
        refine ⟨?_, mset_set a hole elt (by omega), List.length_set a hole elt,
          fun k hk => eGet_set_ne a elt (by omega)⟩
        exact set_elt_isHeapTo a elt hole endd hh hlen H1
          (fun j hj hrel => by omega)
          H2a

theorem getElemOpt_eq_of_eGet_eq {c b : List HeapEntry} {m : Nat}
    (hlen : c.length = b.length) (h : eGet c m = eGet b m) :
    getElem? c m = getElem? b m := by
  rcases Nat.lt_or_ge m b.length with hm | hm
  · rw [List.getElem?_eq_getElem (hlen ▸ hm), List.getElem?_eq_getElem hm]
    rw [eGet_eq_getElem c m (hlen ▸ hm), eGet_eq_getElem b m hm] at h
    exact congrArg some h
  · rw [List.getElem?_eq_none (by omega), List.getElem?_eq_none hm]

theorem mset_listSwap (a : List HeapEntry) {i j : Nat} (hi : i < a.length)
    (hj : j < a.length) :
    ((listSwap a i j : List HeapEntry) : Multiset HeapEntry) =
      (a : Multiset HeapEntry) := by
  rcases eq_or_ne i j with rfl | hne
  · show (((a.set i (eGet a i)).set i (eGet a i) : List HeapEntry) :
      Multiset HeapEntry) = _
    rw [mset_set _ i _ (by rw [List.length_set]; exact hi), eraseIdx_set_same]
    exact (mset_self a i hi).symm
  · show (((a.set i (eGet a j)).set j (eGet a i) : List HeapEntry) :
      Multiset HeapEntry) = _
    rw [mset_set _ j _ (by rw [List.length_set]; exact hj),
      mset_set_get_eraseIdx a hi hj (Ne.symm hne)]
    exact (mset_self a i hi).symm

theorem eGet_mem_take {a : List HeapEntry} {i m : Nat} (him : i < m)
    (hil : i < a.length) : eGet a i ∈ a.take m := by
  have h1 : getElem? (a.take m) i = getElem? a i := List.getElem?_take_of_lt him
  have h2 : getElem? a i = some (eGet a i) := by
    rw [eGet_eq_getElem a i hil, List.getElem?_eq_getElem]
  exact List.getElem?_mem (h1.trans h2)

theorem take_le_root {a : List HeapEntry} {m : Nat} (hh : IsHeapTo a m) :
    ∀ x ∈ a.take m, x.distance ≤ (eGet a 0).distance := by
  intro x hx
  obtain ⟨k, hk, hxk⟩ := List.getElem_of_mem hx
  have hk' := hk
  rw [List.length_take] at hk'
  have hkm : k < m := by omega
  have hkl : k < a.length := by omega
  have h1 : getElem? (a.take m) k = getElem? a k := List.getElem?_take_of_lt hkm
  have h2 : getElem? (a.take m) k = some x := by
    rw [List.getElem?_eq_getElem hk, hxk]
  have h3 : getElem? a k = some (eGet a k) := by
    rw [eGet_eq_getElem a k hkl, List.getElem?_eq_getElem]
  have h4 : some x = some (eGet a k) := by rw [← h2, h1, h3]
  have hx' : x = eGet a k := Option.some.inj h4
  rw [hx']
  exact hh.le_root k hkm

theorem isvAux_spec :
    ∀ (e : Nat) (a : List HeapEntry),
    e ≤ a.length →
    IsHeapTo a e →
    List.Sorted distLE (a.drop e) →
    (∀ x ∈ a.take e, ∀ y ∈ a.drop e, x.distance ≤ y.distance) →
    ((isvAux e a : List HeapEntry) : Multiset HeapEntry) =
      (a : Multiset HeapEntry) ∧
    List.Sorted distLE (isvAux e a) ∧
    (isvAux e a).length = a.length := by
  intro e
  induction e with
  | zero =>
    intro a _ _ hs _
    exact ⟨rfl, by simpa using hs, rfl⟩
  | succ e ih =>
    intro a hle hheap hs hcross
    simp only [isvAux]
    by_cases he : e = 0
    · rw [if_pos he]
      subst he
      cases a with
      | nil => exact ⟨rfl, by simp, rfl⟩
      | cons x t =>
        refine ⟨rfl, ?_, rfl⟩
        rw [List.sorted_cons]
        constructor
        · intro b hb
          exact hcross x (by simp) b (by simpa using hb)
        · simpa using hs
    · rw [if_neg he]
      simp only [siftDownRange]
      have hepos : 0 < e := Nat.pos_of_ne_zero he
      have helen : e < a.length := by omega
      have h0len : 0 < a.length := by omega
      -- the swapped array
      have hblen : (listSwap a 0 e).length = a.length := by
        show ((a.set 0 (eGet a e)).set e (eGet a 0)).length = a.length
        rw [List.length_set, List.length_set]
      have hb0 : eGet (listSwap a 0 e) 0 = eGet a e := by
        show eGet ((a.set 0 (eGet a e)).set e (eGet a 0)) 0 = eGet a e
        rw [eGet_set_ne _ _ (by omega), eGet_set_self a 0 _ h0len]
      have hbe : eGet (listSwap a 0 e) e = eGet a 0 := by
        show eGet ((a.set 0 (eGet a e)).set e (eGet a 0)) e = eGet a 0
        rw [eGet_set_self _ e _ (by rw [List.length_set]; exact helen)]
      have hbk : ∀ k, k ≠ 0 → k ≠ e → eGet (listSwap a 0 e) k = eGet a k := by
        intro k hk0 hke
        show eGet ((a.set 0 (eGet a e)).set e (eGet a 0)) k = eGet a k
        rw [eGet_set_ne _ _ (Ne.symm hke), eGet_set_ne _ _ (Ne.symm hk0)]
      have hbmset : ((listSwap a 0 e : List HeapEntry) : Multiset HeapEntry) =
          (a : Multiset HeapEntry) := mset_listSwap a h0len helen
      -- sift the new root down within the first e positions
      have main := sdrAux_spec e (listSwap a 0 e) (eGet (listSwap a 0 e) 0) 0 e
        hepos (by rw [hblen]; omega) (by omega) ?_
        (by intro h0; exact absurd h0 (by omega))
        (by intro j hj hr h0; exact absurd h0 (by omega))
      · set c := sdrAux e (listSwap a 0 e) (eGet (listSwap a 0 e) 0) 0 e with hcdef
        obtain ⟨cheap, cmset, clen, csuf⟩ := main
        have hclen : c.length = a.length := by rw [clen, hblen]
        have hcmset : (c : Multiset HeapEntry) = (a : Multiset HeapEntry) := by
          rw [cmset, ← mset_self (listSwap a 0 e) 0 (by rw [hblen]; omega), hbmset]
        -- the suffix of c is the old root followed by the old suffix
        have hcdrop : c.drop e = eGet a 0 :: a.drop (e + 1) := by
          apply List.ext_getElem?
          intro k
          rw [List.getElem?_drop]
          cases k with
          | zero =>
            have h1 : getElem? c (e + 0) = some (eGet c e) := by
              rw [Nat.add_zero, eGet_eq_getElem c e (by omega),
                List.getElem?_eq_getElem]
            rw [h1, csuf e (le_refl e), hbe]
            simp
          | succ k =>
            have h2 : getElem? c (e + (k + 1)) =
                getElem? (listSwap a 0 e) (e + (k + 1)) :=
              getElemOpt_eq_of_eGet_eq (by omega) (csuf (e + (k + 1)) (by omega))
            have h3 : getElem? (listSwap a 0 e) (e + (k + 1)) =
                getElem? a (e + (k + 1)) := by
              apply getElemOpt_eq_of_eGet_eq (by omega)
              exact hbk (e + (k + 1)) (by omega) (by omega)
            rw [h2, h3, List.getElem?_cons_succ, List.getElem?_drop]
            congr 1
            omega
        -- elements of the first e positions of c sit among the first e+1 of a
        have hsplit : ((c.take e : List HeapEntry) : Multiset HeapEntry) +
            ((c.drop e : List HeapEntry) : Multiset HeapEntry) =
            ((a.take (e + 1) : List HeapEntry) : Multiset HeapEntry) +
            ((a.drop (e + 1) : List HeapEntry) : Multiset HeapEntry) := by
          rw [Multiset.coe_add, Multiset.coe_add, List.take_append_drop,
            List.take_append_drop, hcmset]
        have hdropm : ((c.drop e : List HeapEntry) : Multiset HeapEntry) =
            eGet a 0 ::ₘ ((a.drop (e + 1) : List HeapEntry) : Multiset HeapEntry) := by
          rw [hcdrop, ← Multiset.cons_coe]
        have htakem : ((c.take e : List HeapEntry) : Multiset HeapEntry) ≤
            ((a.take (e + 1) : List HeapEntry) : Multiset HeapEntry) := by
          have h4 : ((c.take e : List HeapEntry) : Multiset HeapEntry) +
              ({eGet a 0} +
                ((a.drop (e + 1) : List HeapEntry) : Multiset HeapEntry)) =
              ((a.take (e + 1) : List HeapEntry) : Multiset HeapEntry) +
              ((a.drop (e + 1) : List HeapEntry) : Multiset HeapEntry) := by
            rw [Multiset.singleton_add, ← hdropm]
            exact hsplit
          rw [← add_assoc] at h4
          have h5 := add_right_cancel h4
          exact Multiset.le_iff_exists_add.mpr ⟨{eGet a 0}, h5.symm⟩
        have hctake : ∀ x ∈ c.take e, x ∈ a.take (e + 1) := by
          intro x hx
          exact Multiset.mem_coe.mp (Multiset.mem_of_le htakem
            (Multiset.mem_coe.mpr hx))
        have hcross' : ∀ x ∈ c.take e, ∀ y ∈ c.drop e,
            x.distance ≤ y.distance := by
          intro x hx y hy
          have hxT := hctake x hx
          rw [hcdrop] at hy
          rcases List.mem_cons.mp hy with rfl | hy'
          · exact take_le_root hheap x hxT
          · exact hcross x hxT y hy'
        have hsort' : List.Sorted distLE (c.drop e) := by
          rw [hcdrop, List.sorted_cons]
          constructor
          · intro b hb
            exact hcross (eGet a 0) (eGet_mem_take (by omega) (by omega)) b hb
          · exact hs
        have rec := ih c (by rw [hclen]; omega) cheap hsort' hcross'
        exact ⟨by rw [rec.1, hcmset], rec.2.1, by rw [rec.2.2, hclen]⟩
      · intro i j hj hrel hjne hine
        rw [hbk j (by omega) (by omega), hbk i (by omega) (by omega)]
        exact hheap i j (by omega) hrel

theorem intoSortedVec_spec (a : List HeapEntry) (hh : IsHeap a) :
    ((intoSortedVec a : List HeapEntry) : Multiset HeapEntry) =
      (a : Multiset HeapEntry) ∧
    List.Sorted distLE (intoSortedVec a) ∧
    (intoSortedVec a).length = a.length := by
  have main := isvAux_spec a.length a (le_refl _) hh (by simp) (by simp)
  simpa [intoSortedVec] using main

/-! ## The selection loop keeps the `n` smallest distances -/

theorem mset_concat (es : List HeapEntry) (e : HeapEntry) :
    ((es ++ [e] : List HeapEntry) : Multiset HeapEntry) =
      e ::ₘ (es : Multiset HeapEntry) := by
  rw [Multiset.cons_coe, Multiset.coe_eq_coe]
  exact List.perm_append_singleton e es

theorem heapStep_of_lt {n : Nat} {h : List HeapEntry} (e : HeapEntry)
    (hlt : h.length < n) : heapStep n h e = heapPush h e := by
  unfold heapStep
  rw [if_pos hlt]

theorem heapStep_peek_some {n : Nat} {h : List HeapEntry} {top : HeapEntry}
    (e : HeapEntry) (hp : heapPeek h = some top) (hlt : ¬ h.length < n) :
    heapStep n h e =
      if e.distance < top.distance then heapPush (heapPop h) e else h := by
  unfold heapStep
  rw [if_neg hlt, hp]

theorem runHeap_append (n : Nat) (es : List HeapEntry) (e : HeapEntry) :
    runHeap n (es ++ [e]) = heapStep n (runHeap n es) e := by
  unfold runHeap
  rw [List.foldl_append]
  rfl

theorem runHeap_zero : ∀ es : List HeapEntry, runHeap 0 es = [] := by
  intro es
  induction es using List.reverseRecOn with
  | nil => rfl
  | append_singleton es e ih =>
    rw [runHeap_append, ih]
    rfl

theorem heapStep_isHeap {n : Nat} {h : List HeapEntry} (hh : IsHeap h)
    (e : HeapEntry) : IsHeap (heapStep n h e) := by
  by_cases hlt : h.length < n
  · rw [heapStep_of_lt e hlt]
    exact (heapPush_spec h e hh).1
  · cases hp : heapPeek h with
    | none =>
      unfold heapStep
      rw [if_neg hlt, hp]
      exact hh
    | some top =>
      rw [heapStep_peek_some e hp hlt]
      by_cases hd : e.distance < top.distance
      · rw [if_pos hd]
        have hne : h ≠ [] := by
          intro hx
          rw [hx] at hp
          exact Option.noConfusion hp
        exact (heapPush_spec _ e (heapPop_spec h hne hh).1).1
      · rw [if_neg hd]
        exact hh

theorem heapStep_mset_le {n : Nat} {h : List HeapEntry} (hh : IsHeap h)
    (e : HeapEntry) :
    ((heapStep n h e : List HeapEntry) : Multiset HeapEntry) ≤
      e ::ₘ (h : Multiset HeapEntry) := by
  by_cases hlt : h.length < n
  · rw [heapStep_of_lt e hlt, (heapPush_spec h e hh).2.1]
  · cases hp : heapPeek h with
    | none =>
      unfold heapStep
      rw [if_neg hlt, hp]
      exact Multiset.le_cons_self _ _
    | some top =>
      rw [heapStep_peek_some e hp hlt]
      by_cases hd : e.distance < top.distance
      · rw [if_pos hd]
        have hne : h ≠ [] := by
          intro hx
          rw [hx] at hp
          exact Option.noConfusion hp
        have hpop := heapPop_spec h hne hh
        rw [(heapPush_spec _ e hpop.1).2.1]
        refine Multiset.cons_le_cons e ?_
        rw [hpop.2.1]
        exact Multiset.le_cons_self _ _
      · rw [if_neg hd]
        exact Multiset.le_cons_self _ _

theorem mset_sub_of_pop (D S P : Multiset HeapEntry) (top : HeapEntry)
    (hS : S ≤ D) (hP : S = top ::ₘ P) : D - P = top ::ₘ (D - S) := by
  rw [Multiset.ext]
  intro v
  rw [Multiset.count_sub, Multiset.count_cons, Multiset.count_sub]
  have h1 : Multiset.count v S = Multiset.count v P +
      (if v = top then 1 else 0) := by
    rw [hP, Multiset.count_cons]
  have h2 : Multiset.count v S ≤ Multiset.count v D :=
    Multiset.count_le_of_le v hS
  omega

theorem mset_cons_sub_of_le (e : HeapEntry) {D S : Multiset HeapEntry}
    (hS : S ≤ D) : (e ::ₘ D) - S = e ::ₘ (D - S) := by
  rw [Multiset.ext]
  intro v
  rw [Multiset.count_sub, Multiset.count_cons, Multiset.count_cons,
    Multiset.count_sub]
  have := Multiset.count_le_of_le v hS
  omega

theorem mset_cons_sub_cons (e : HeapEntry) (D S : Multiset HeapEntry) :
    (e ::ₘ D) - (e ::ₘ S) = D - S := by
  rw [Multiset.ext]
  intro v
  rw [Multiset.count_sub, Multiset.count_cons, Multiset.count_cons,
    Multiset.count_sub]
  omega

theorem runHeap_spec (n : Nat) (hn : 0 < n) :
    ∀ es : List HeapEntry,
    IsHeap (runHeap n es) ∧
    (runHeap n es).length = min es.length n ∧
    ((runHeap n es : List HeapEntry) : Multiset HeapEntry) ≤
      (es : Multiset HeapEntry) ∧
    (∀ x ∈ ((runHeap n es : List HeapEntry) : Multiset HeapEntry),
      ∀ y ∈ (es : Multiset HeapEntry) -
        ((runHeap n es : List HeapEntry) : Multiset HeapEntry),
      x.distance ≤ y.distance) := by
  intro es
  induction es using List.reverseRecOn with
  | nil =>
    refine ⟨?_, by simp [runHeap], by simp [runHeap], ?_⟩
    · intro i j hj hrel
      simp [runHeap] at hj
    · intro x hx
      simp [runHeap] at hx
  | append_singleton es e ih =>
    obtain ⟨ihH, ihL, ihS, ihD⟩ := ih
    rw [runHeap_append, mset_concat]
    set h := runHeap n es with hhdef
    by_cases hlt : h.length < n
    · rw [heapStep_of_lt e hlt]
      -- in the filling phase the heap holds every entry seen so far
      have hfull : (h : Multiset HeapEntry) = (es : Multiset HeapEntry) := by
        refine Multiset.eq_of_le_of_card_le ihS ?_
        rw [Multiset.coe_card, Multiset.coe_card, ihL]
        omega
      have hpush := heapPush_spec h e ihH
      refine ⟨hpush.1, ?_, ?_, ?_⟩
      · rw [hpush.2.2, ihL]
        simp
        omega
      · rw [hpush.2.1]
        exact Multiset.cons_le_cons e (by rw [hfull])
      · intro x hx y hy
        rw [hpush.2.1, hfull, mset_cons_sub_cons, tsub_self] at hy
        exact absurd hy (Multiset.not_mem_zero y)
    · have hlen : h.length = n := by
        rw [ihL] at hlt ⊢
        omega
      have hne : h ≠ [] := by
        intro hx
        rw [hx] at hlen
        simp at hlen
        omega
      rw [heapStep_peek_some e (heapPeek_eq h hne) hlt]
      set top := eGet h 0 with htopdef
      have htopmem : top ∈ h := eGet_mem h 0 (by
        have := List.length_pos.mpr hne
        omega)
      have hroot : ∀ x ∈ h, x.distance ≤ top.distance :=
        fun x hx => ihH.mem_le_root hx
      by_cases hd : e.distance < top.distance
      · rw [if_pos hd]
        have hpop := heapPop_spec h hne ihH
        have hpush := heapPush_spec _ e hpop.1
        have hDsub : (es : Multiset HeapEntry) -
            ((heapPop h : List HeapEntry) : Multiset HeapEntry) =
            top ::ₘ ((es : Multiset HeapEntry) -
              (h : Multiset HeapEntry)) :=
          mset_sub_of_pop _ _ _ top ihS hpop.2.1
        refine ⟨hpush.1, ?_, ?_, ?_⟩
        · rw [hpush.2.2]
          have := hpop.2.2
          rw [ihL] at hlt
          simp
          omega
        · rw [hpush.2.1]
          refine Multiset.cons_le_cons e (le_trans ?_ ihS)
          rw [hpop.2.1]
          exact Multiset.le_cons_self _ _
        · intro x hx y hy
          rw [hpush.2.1] at hx
          rw [hpush.2.1, mset_cons_sub_cons, hDsub] at hy
          rcases Multiset.mem_cons.mp hx with rfl | hxp
          · rcases Multiset.mem_cons.mp hy with rfl | hyd
            · exact le_of_lt hd
            · exact le_trans (le_of_lt hd)
                (ihD top (Multiset.mem_coe.mpr htopmem) y hyd)
          · have hxh : x ∈ (h : Multiset HeapEntry) := by
              rw [hpop.2.1]
              exact Multiset.mem_cons_of_mem hxp
            rcases Multiset.mem_cons.mp hy with rfl | hyd
            · exact hroot x (Multiset.mem_coe.mp hxh)
            · exact ihD x hxh y hyd
      · rw [if_neg hd]
        refine ⟨ihH, ?_, le_trans ihS (Multiset.le_cons_self _ _), ?_⟩
        · rw [ihL] at hlt ⊢
          simp
          omega
        · intro x hx y hy
          rw [mset_cons_sub_of_le e ihS] at hy
          rcases Multiset.mem_cons.mp hy with rfl | hyd
          · exact le_trans (hroot x (Multiset.mem_coe.mp hx)) (by omega)
          · exact ihD x hx y hyd

/-! ## Unfolding the top-level function -/

theorem buildHeap_eq_runHeap (hv n : Nat) (weights : Option (List Nat))
    (ids : List (List Nat)) :
    buildHeap hv n weights ids = runHeap n (allEntries hv weights ids) := by
  unfold buildHeap runHeap allEntries
  rw [List.foldl_map]

theorem allEntries_length (hv : Nat) (weights : Option (List Nat))
    (ids : List (List Nat)) :
    (allEntries hv weights ids).length = ids.length := by
  simp [allEntries]

theorem xds_general (name : String) (seed : List Nat) (seq n : Nat)
    (ids : List (List Nat)) (alg : List Nat → List Nat)
    (weights : Option (List Nat)) (h1 : n < ids.length) :
    xor_distance_selection name seed seq n ids alg weights =
      some ((intoSortedVec (runHeap n
        (allEntries (fromBytesBE (compute_hash name seed seq alg))
          weights ids))).map HeapEntry.id) := by
  unfold xor_distance_selection
  rw [if_neg (by omega), if_neg (by omega)]
  show some ((intoSortedVec (buildHeap
    (fromBytesBE (compute_hash name seed seq alg)) n weights
    ids)).map HeapEntry.id) = _
  rw [buildHeap_eq_runHeap]

theorem applyWeight_some (ws : List Nat) (i d : Nat) :
    applyWeight (some ws) i d =
      match ws[i]? with
      | some w => if 0 < w then d / w else d
      | none => d := rfl

/-! ## The claims -/

/-- C5: `compute_hash` is exactly the pluggable digest applied to the
concatenation, in order, of the UTF-8 bytes of the context name, the raw
seed bytes, and the ASCII decimal representation of the sequence number.
It is total, also for empty context and seed. -/
theorem compute_hash_is_digest_of_stream (name : String) (seed : List Nat)
    (seq : Nat) (alg : List Nat → List Nat) :
    compute_hash name seed seq alg =
      alg (strBytes name ++ seed ++ strBytes (Nat.repr seq)) := rfl

/-- C6: when `n ≥ len(candidates) > 0` the whole candidate list is returned
unchanged and in input order, for every weights argument and every digest
algorithm (the result does not depend on either). -/
theorem xds_saturation (name : String) (seed : List Nat) (seq n : Nat)
    (ids : List (List Nat)) (alg : List Nat → List Nat)
    (weights : Option (List Nat)) (hpos : 0 < ids.length)
    (hn : ids.length ≤ n) :
    xor_distance_selection name seed seq n ids alg weights = some ids := by
  unfold xor_distance_selection
  rw [if_neg (by omega), if_pos hn]

theorem xds_saturation_witness :
    0 < ([[1], [2]] : List (List Nat)).length ∧
    ([[1], [2]] : List (List Nat)).length ≤ 3 ∧
    xor_distance_selection "ctx" [0] 7 3 [[1], [2]] (fun l => l)
      (some [5]) = some [[1], [2]] :=
  ⟨by decide, by decide,
    xds_saturation "ctx" [0] 7 3 [[1], [2]] (fun l => l) (some [5])
      (by decide) (by decide)⟩

/-- C9: the result is `none` exactly when the candidate list is empty
(whatever `n` is), and `n = 0` with a non-empty candidate list yields
`some []`, a present but empty selection. -/
theorem xds_none_iff_empty (name : String) (seed : List Nat) (seq n : Nat)
    (ids : List (List Nat)) (alg : List Nat → List Nat)
    (weights : Option (List Nat)) :
    (xor_distance_selection name seed seq n ids alg weights = none ↔
      ids.length = 0) ∧
    (n = 0 → 0 < ids.length →
      xor_distance_selection name seed seq n ids alg weights = some []) := by
  constructor
  · unfold xor_distance_selection
    by_cases he : ids.length = 0
    · rw [if_pos he]
      exact ⟨fun _ => he, fun _ => rfl⟩
    · rw [if_neg he]
      by_cases hle : ids.length ≤ n
      · rw [if_pos hle]
        constructor
        · intro hc
          exact Option.noConfusion hc
        · intro hc
          exact absurd hc he
      · rw [if_neg hle]
        constructor
        · intro hc
          exact Option.noConfusion hc
        · intro hc
          exact absurd hc he
  · intro hn0 hpos
    subst hn0
    unfold xor_distance_selection
    rw [if_neg (by omega), if_neg (by omega)]
    show some ((intoSortedVec (buildHeap
      (fromBytesBE (compute_hash name seed seq alg)) 0 weights
      ids)).map HeapEntry.id) = _
    rw [buildHeap_eq_runHeap, runHeap_zero]
    rfl

theorem xds_none_iff_empty_witness :
    xor_distance_selection "c" [] 1 0 [[1]] (fun l => l) none = some [] :=
  (xds_none_iff_empty "c" [] 1 0 [[1]] (fun l => l) none).2 rfl (by decide)

/-- C10: determinism: the selection is a pure function of the argument
tuple; two calls whose context, seed, sequence number, `n`, candidate list
and weights agree, and whose hash algorithms agree on every input, return
identical results. -/
theorem xds_deterministic (name name' : String) (seed seed' : List Nat)
    (seq seq' n n' : Nat) (ids ids' : List (List Nat))
    (alg alg' : List Nat → List Nat) (weights weights' : Option (List Nat))
    (hname : name = name') (hseed : seed = seed') (hseq : seq = seq')
    (hn : n = n') (hids : ids = ids')
    (halg : ∀ bs, alg bs = alg' bs) (hw : weights = weights') :
    xor_distance_selection name seed seq n ids alg weights =
      xor_distance_selection name' seed' seq' n' ids' alg' weights' := by
  subst hname hseed hseq hn hids hw
  rw [funext halg]

theorem xds_deterministic_witness :
    xor_distance_selection "a" [1] 2 1 [[0], [1], [2]] (fun l => l) none =
      xor_distance_selection "a" [1] (1 + 1) 1 [[0], [1], [2]]
        (fun l => [] ++ l) none :=
  xds_deterministic "a" "a" [1] [1] 2 (1 + 1) 1 1 [[0], [1], [2]]
    [[0], [1], [2]] (fun l => l) (fun l => [] ++ l) none none
    rfl rfl (by decide) rfl rfl (fun bs => (List.nil_append bs).symm) rfl

theorem headD_toU64Digits (v : Nat) :
    (toU64Digits v).headD 0 = v % 2 ^ 64 := by
  cases v with
  | zero => rfl
  | succ k => rfl

/-- C7: the distance key of a candidate with bytes `id` against reference
value `hv` (both read as big-endian unbounded naturals, XOR-ed as such) is
`(hv XOR C) mod 2^64`; when the XOR is zero the key is `0` (the empty limb
list case); and bits above the low 64 never influence the entry built for
the heap. -/
theorem distance_key_low64 (hv : Nat) (weights : Option (List Nat))
    (i : Nat) (id : List Nat) :
    ((toU64Digits (Nat.xor hv (fromBytesBE id))).headD 0 =
      Nat.xor hv (fromBytesBE id) % 2 ^ 64) ∧
    (Nat.xor hv (fromBytesBE id) = 0 →
      (toU64Digits (Nat.xor hv (fromBytesBE id))).headD 0 = 0) ∧
    (mkEntry hv weights i id).distance =
      applyWeight weights i (Nat.xor hv (fromBytesBE id) % 2 ^ 64) ∧
    (∀ hv' id',
      Nat.xor hv (fromBytesBE id) % 2 ^ 64 =
        Nat.xor hv' (fromBytesBE id') % 2 ^ 64 →
      (mkEntry hv weights i id).distance =
        (mkEntry hv' weights i id').distance) := by
  refine ⟨headD_toU64Digits _, ?_, ?_, ?_⟩
  · intro h0
    rw [h0]
    rfl
  · show applyWeight weights i _ = _
    rw [headD_toU64Digits]
  · intro hv' id' hmod
    show applyWeight weights i _ = applyWeight weights i _
    rw [headD_toU64Digits, headD_toU64Digits, hmod]

theorem distance_key_low64_witness :
    (toU64Digits (Nat.xor 5 (fromBytesBE [5]))).headD 0 = 0 ∧
    (mkEntry 5 none 0 [5]).distance =
      (mkEntry (2 ^ 64 + 5) none 0 [5]).distance :=
  ⟨(distance_key_low64 5 none 0 [5]).2.1 (by decide),
   (distance_key_low64 5 none 0 [5]).2.2.2 (2 ^ 64 + 5) [5] (by decide)⟩

/-- C8: weight application: a present, strictly positive weight at the
candidate's index divides the key (floor division); an absent weights
option, an index past the end of the weights list, or a zero weight all
leave the key unchanged, with no error. -/
theorem applyWeight_cases (i d : Nat) :
    (applyWeight none i d = d) ∧
    (∀ ws : List Nat, ws.length ≤ i → applyWeight (some ws) i d = d) ∧
    (∀ ws : List Nat, ∀ hi : i < ws.length, ws.get ⟨i, hi⟩ = 0 →
      applyWeight (some ws) i d = d) ∧
    (∀ ws : List Nat, ∀ hi : i < ws.length, 0 < ws.get ⟨i, hi⟩ →
      applyWeight (some ws) i d = d / ws.get ⟨i, hi⟩) := by
  refine ⟨rfl, ?_, ?_, ?_⟩
  · intro ws hlen
    rw [applyWeight_some, List.getElem?_eq_none hlen]
  · intro ws hi h0
    rw [List.get_eq_getElem] at h0
    rw [applyWeight_some, List.getElem?_eq_getElem hi, h0]
    simp
  · intro ws hi hpos
    rw [List.get_eq_getElem] at hpos
    rw [List.get_eq_getElem]
    rw [applyWeight_some, List.getElem?_eq_getElem hi]
    show (if 0 < ws[i] then d / ws[i] else d) = d / ws[i]
    rw [if_pos hpos]

theorem applyWeight_cases_witness :
    applyWeight (some [5]) 2 9 = 9 ∧
    applyWeight (some [0]) 0 9 = 9 ∧
    applyWeight (some [2]) 0 9 = 4 :=
  ⟨(applyWeight_cases 2 9).2.1 [5] (by decide),
   (applyWeight_cases 0 9).2.2.1 [0] (by decide) (by decide),
   ((applyWeight_cases 0 9).2.2.2 [2] (by decide) (by decide)).trans
     (by decide)⟩

/-- C1: in the general path (`0 < n < p`) the selection returns `some` of
the ids of an entry list `sel`: `sel` has length `n`, is sorted by
ascending effective distance, is a sub-multiset of the `p` computed
entries, and every selected entry's distance is at most every discarded
entry's distance — i.e. exactly the `n` smallest effective distances are
kept. -/
theorem xds_selects_n_smallest (name : String) (seed : List Nat)
    (seq n : Nat) (ids : List (List Nat)) (alg : List Nat → List Nat)
    (weights : Option (List Nat)) (h0 : 0 < n) (h1 : n < ids.length) :
    ∃ sel : List HeapEntry,
      xor_distance_selection name seed seq n ids alg weights =
        some (sel.map HeapEntry.id) ∧
      sel.length = n ∧
      List.Sorted distLE sel ∧
      (sel : Multiset HeapEntry) ≤
        ((allEntries (fromBytesBE (compute_hash name seed seq alg)) weights
          ids : List HeapEntry) : Multiset HeapEntry) ∧
      (∀ x ∈ (sel : Multiset HeapEntry),
        ∀ y ∈ ((allEntries (fromBytesBE (compute_hash name seed seq alg))
            weights ids : List HeapEntry) : Multiset HeapEntry) -
          (sel : Multiset HeapEntry),
        x.distance ≤ y.distance) := by
  obtain ⟨hH, hL, hS, hD⟩ := runHeap_spec n h0
    (allEntries (fromBytesBE (compute_hash name seed seq alg)) weights ids)
  obtain ⟨hmset, hsort, hlen⟩ := intoSortedVec_spec
    (runHeap n
      (allEntries (fromBytesBE (compute_hash name seed seq alg)) weights ids))
    hH
  refine ⟨intoSortedVec (runHeap n
    (allEntries (fromBytesBE (compute_hash name seed seq alg)) weights ids)),
    xds_general name seed seq n ids alg weights h1, ?_, hsort, ?_, ?_⟩
  · rw [hlen, hL, allEntries_length]
    omega
  · rw [hmset]
    exact hS
  · rw [hmset]
    exact hD

theorem xds_selects_n_smallest_witness :
    ∃ sel : List HeapEntry,
      xor_distance_selection "x" [] 0 1 [[0], [1]] (fun _ => []) none =
        some (sel.map HeapEntry.id) ∧
      sel.length = 1 ∧
      List.Sorted distLE sel ∧
      (sel : Multiset HeapEntry) ≤
        ((allEntries (fromBytesBE (compute_hash "x" [] 0 (fun _ => [])))
          none [[0], [1]] : List HeapEntry) : Multiset HeapEntry) ∧
      (∀ x ∈ (sel : Multiset HeapEntry),
        ∀ y ∈ ((allEntries (fromBytesBE (compute_hash "x" [] 0
            (fun _ => []))) none [[0], [1]] : List HeapEntry) :
            Multiset HeapEntry) -
          (sel : Multiset HeapEntry),
        x.distance ≤ y.distance) :=
  xds_selects_n_smallest "x" [] 0 1 [[0], [1]] (fun _ => []) none
    (by decide) (by decide)

/-- C4 (amended): the two comparison impls disagree on every pair with
distinct distances (`partial_cmp` is never `some (cmp ..)` there), and the
heap the loop builds — whose sift operations all dispatch to the
un-reversed `PartialOrd` operators — surfaces at `peek` an entry of
**largest** distance, maximal among all entries in the heap. -/
theorem heapEntry_orders_disagree :
    (∀ a b : HeapEntry, a.distance ≠ b.distance →
      a.pcmp b ≠ some (a.cmp b)) ∧
    (∀ h : List HeapEntry, IsHeap h → ∀ top, heapPeek h = some top →
      ∀ x ∈ h, x.distance ≤ top.distance) := by
  constructor
  · intro a b hne heq
    rw [HeapEntry.pcmp, HeapEntry.cmp] at heq
    have h2 := Option.some.inj heq
    cases hc : compare a.distance b.distance with
    | lt =>
      rw [hc] at h2
      exact absurd h2 (by decide)
    | eq => exact hne (Nat.compare_eq_eq.mp hc)
    | gt =>
      rw [hc] at h2
      exact absurd h2 (by decide)
  · intro h hh top htop x hx
    have hne : h ≠ [] := by
      intro he
      rw [he] at htop
      exact Option.noConfusion htop
    have hpe := heapPeek_eq h hne
    rw [htop] at hpe
    rw [Option.some.inj hpe]
    exact hh.mem_le_root hx

theorem heapEntry_orders_disagree_witness :
    HeapEntry.pcmp ⟨[3], 5⟩ ⟨[4], 7⟩ ≠
      some (HeapEntry.cmp ⟨[3], 5⟩ ⟨[4], 7⟩) ∧
    (∀ x ∈ ([⟨[9], 9⟩] : List HeapEntry),
      x.distance ≤ (⟨[9], 9⟩ : HeapEntry).distance) :=
  ⟨heapEntry_orders_disagree.1 ⟨[3], 5⟩ ⟨[4], 7⟩ (by decide),
   heapEntry_orders_disagree.2 [⟨[9], 9⟩]
     (by intro i j hj hrel; simp at hj; omega) ⟨[9], 9⟩ rfl⟩

/-- C4 counterexample to "peek surfaces the smallest": with entries of
distance 1 and 2 in the heap, `peek` returns the one of distance 2 — the
largest, not the smallest (the first conjunct is the true disagreement
part of the claim, at a concrete pair). -/
theorem heapEntry_peek_not_smallest :
    HeapEntry.pcmp ⟨[1], 1⟩ ⟨[2], 2⟩ ≠
      some (HeapEntry.cmp ⟨[1], 1⟩ ⟨[2], 2⟩) ∧
    heapPeek (heapPush (heapPush [] ⟨[1], 1⟩) ⟨[2], 2⟩) = some ⟨[2], 2⟩ ∧
    ¬ ((⟨[2], 2⟩ : HeapEntry).distance ≤
        (⟨[1], 1⟩ : HeapEntry).distance) := by
  decide

/-! ## Permutation invariance: machinery -/

theorem entryOfPair_weightAt (hv : Nat) (weights : Option (List Nat))
    (i : Nat) (id : List Nat) :
    entryOfPair hv (id, weightAt weights i) =
      ⟨id, applyWeight weights i
        ((toU64Digits (Nat.xor hv (fromBytesBE id))).headD 0)⟩ := by
  cases weights with
  | none => rfl
  | some ws =>
    rw [applyWeight_some]
    show entryOfPair hv (id, ws[i]?) = _
    cases hx : ws[i]? with
    | none => rfl
    | some w => rfl

theorem mkEntry_eq_entryOfPair (hv : Nat) (weights : Option (List Nat))
    (i : Nat) (id : List Nat) :
    mkEntry hv weights i id = entryOfPair hv (id, weightAt weights i) :=
  (entryOfPair_weightAt hv weights i id).symm

theorem allEntries_eq_map_wPairs (hv : Nat) (weights : Option (List Nat))
    (ids : List (List Nat)) :
    allEntries hv weights ids = (wPairs ids weights).map (entryOfPair hv) := by
  unfold allEntries wPairs
  rw [List.map_map]
  refine List.map_congr_left ?_
  intro p hp
  exact mkEntry_eq_entryOfPair hv weights p.1 p.2

theorem bottom_unique (D S₁ S₂ : Multiset HeapEntry)
    (h1 : S₁ ≤ D) (h2 : S₂ ≤ D) (hc : S₁.card = S₂.card)
    (hd1 : ∀ x ∈ S₁, ∀ y ∈ D - S₁, x.distance ≤ y.distance)
    (hd2 : ∀ x ∈ S₂, ∀ y ∈ D - S₂, x.distance ≤ y.distance)
    (hnd : (D.map HeapEntry.distance).Nodup) : S₁ = S₂ := by
  have hDnd : D.Nodup := Multiset.Nodup.of_map _ hnd
  have hinj := Multiset.inj_on_of_nodup_map hnd
  have hS1nd : S₁.Nodup := Multiset.nodup_of_le h1 hDnd
  have hS2nd : S₂.Nodup := Multiset.nodup_of_le h2 hDnd
  have key : ∀ x, x ∈ S₁ → x ∉ S₂ → False := by
    intro x hx1 hx2
    have hex : ∃ y, y ∈ S₂ ∧ y ∉ S₁ := by
      by_contra hno
      push_neg at hno
      have hle : S₂ ≤ S₁ := (Multiset.le_iff_subset hS2nd).mpr
        (fun a ha => hno a ha)
      have : S₂ = S₁ := Multiset.eq_of_le_of_card_le hle (le_of_eq hc)
      exact hx2 (this ▸ hx1)
    obtain ⟨y, hy2, hy1⟩ := hex
    have hxD : x ∈ D := Multiset.mem_of_le h1 hx1
    have hyD : y ∈ D := Multiset.mem_of_le h2 hy2
    have hxd : x ∈ D - S₂ := by
      rw [← Multiset.count_pos, Multiset.count_sub]
      have hc1 : 0 < Multiset.count x D := Multiset.count_pos.mpr hxD
      have hc2 : Multiset.count x S₂ = 0 := Multiset.count_eq_zero.mpr hx2
      omega
    have hyd : y ∈ D - S₁ := by
      rw [← Multiset.count_pos, Multiset.count_sub]
      have hc1 : 0 < Multiset.count y D := Multiset.count_pos.mpr hyD
      have hc2 : Multiset.count y S₁ = 0 := Multiset.count_eq_zero.mpr hy1
      omega
    have e1 : x.distance ≤ y.distance := hd1 x hx1 y hyd
    have e2 : y.distance ≤ x.distance := hd2 y hy2 x hxd
    have : x = y := hinj x hxD y hyD (le_antisymm e1 e2)
    exact hy1 (this ▸ hx1)
  have hle : S₁ ≤ S₂ := (Multiset.le_iff_subset hS1nd).mpr
    (fun a ha => by
      by_contra hna
      exact key a ha hna)
  exact Multiset.eq_of_le_of_card_le hle (le_of_eq hc.symm)

theorem sorted_nodup_dist_eq :
    ∀ l₁ l₂ : List HeapEntry, l₁.Perm l₂ → List.Sorted distLE l₁ →
      List.Sorted distLE l₂ → (l₁.map HeapEntry.distance).Nodup →
      l₁ = l₂ := by
  intro l₁
  induction l₁ with
  | nil =>
    intro l₂ hp _ _ _
    exact hp.nil_eq
  | cons x t ih =>
    intro l₂ hp hs1 hs2 hnd
    cases l₂ with
    | nil => exact absurd hp.symm.nil_eq (by simp)
    | cons y u =>
      have hxy : x = y := by
        rcases List.mem_cons.mp (hp.mem_iff.mp (List.mem_cons_self x t))
          with h | hxu
        · exact h
        · rcases List.mem_cons.mp
            (hp.symm.mem_iff.mp (List.mem_cons_self y u)) with h' | hyt
          · exact h'.symm
          · have d1 : x.distance ≤ y.distance :=
              (List.sorted_cons.mp hs1).1 y hyt
            have d2 : y.distance ≤ x.distance :=
              (List.sorted_cons.mp hs2).1 x hxu
            have hy1 : y ∈ x :: t := hp.mem_iff.mpr (List.mem_cons_self y u)
            exact List.inj_on_of_nodup_map hnd
              (List.mem_cons_self x t) hy1 (le_antisymm d1 d2)
      subst hxy
      have hpt : t.Perm u := hp.cons_inv
      have htail := ih u hpt (List.sorted_cons.mp hs1).2
        (List.sorted_cons.mp hs2).2 (by
          rw [List.map_cons] at hnd
          exact hnd.of_cons)
      rw [htail]

/-- C2 (amended): permuting the candidate list, with the weights permuted
in lockstep (same index mapping — i.e. the candidate/weight *pairs* are
permuted), leaves the output unchanged, **provided the effective distances
of the candidates are pairwise distinct**.  (With ties the selected set
itself can change; see the counterexample.) -/
theorem xds_perm_invariant (name : String) (seed : List Nat) (seq n : Nat)
    (ids₁ ids₂ : List (List Nat)) (alg : List Nat → List Nat)
    (w₁ w₂ : Option (List Nat))
    (hperm : (wPairs ids₁ w₁).Perm (wPairs ids₂ w₂))
    (h0 : 0 < n) (h1 : n < ids₁.length)
    (hnd : ((allEntries (fromBytesBE (compute_hash name seed seq alg)) w₁
        ids₁).map HeapEntry.distance).Nodup) :
    xor_distance_selection name seed seq n ids₁ alg w₁ =
      xor_distance_selection name seed seq n ids₂ alg w₂ := by
  have hlen12 : ids₁.length = ids₂.length := by
    have := hperm.length_eq
    simpa [wPairs] using this
  have h2 : n < ids₂.length := hlen12 ▸ h1
  set hv := fromBytesBE (compute_hash name seed seq alg) with hvdef
  have hpe : (allEntries hv w₁ ids₁).Perm (allEntries hv w₂ ids₂) := by
    rw [allEntries_eq_map_wPairs, allEntries_eq_map_wPairs]
    exact hperm.map _
  have hmeq : ((allEntries hv w₁ ids₁ : List HeapEntry) :
      Multiset HeapEntry) =
      ((allEntries hv w₂ ids₂ : List HeapEntry) : Multiset HeapEntry) :=
    Multiset.coe_eq_coe.mpr hpe
  rw [xds_general name seed seq n ids₁ alg w₁ h1,
    xds_general name seed seq n ids₂ alg w₂ h2]
  obtain ⟨hH1, hL1, hS1, hD1⟩ := runHeap_spec n h0 (allEntries hv w₁ ids₁)
  obtain ⟨hH2, hL2, hS2, hD2⟩ := runHeap_spec n h0 (allEntries hv w₂ ids₂)
  obtain ⟨hm1, hsort1, hlen1⟩ := intoSortedVec_spec _ hH1
  obtain ⟨hm2, hsort2, hlen2⟩ := intoSortedVec_spec _ hH2
  have hndm : (((allEntries hv w₁ ids₁ : List HeapEntry) :
      Multiset HeapEntry).map HeapEntry.distance).Nodup := by
    rw [Multiset.map_coe, Multiset.coe_nodup]
    exact hnd
  have hsame : ((runHeap n (allEntries hv w₁ ids₁) : List HeapEntry) :
      Multiset HeapEntry) =
      ((runHeap n (allEntries hv w₂ ids₂) : List HeapEntry) :
        Multiset HeapEntry) := by
    refine bottom_unique
      ((allEntries hv w₁ ids₁ : List HeapEntry) : Multiset HeapEntry) _ _
      hS1 (hmeq ▸ hS2) ?_ hD1 (by rw [hmeq]; exact hD2) hndm
    rw [Multiset.coe_card, Multiset.coe_card, hL1, hL2,
      allEntries_length, allEntries_length, hlen12]
  have hfin := sorted_nodup_dist_eq
    (intoSortedVec (runHeap n (allEntries hv w₁ ids₁)))
    (intoSortedVec (runHeap n (allEntries hv w₂ ids₂)))
    (Multiset.coe_eq_coe.mp (by rw [hm1, hm2, hsame]))
    hsort1 hsort2
    (by
      have hsub : ((intoSortedVec (runHeap n (allEntries hv w₁ ids₁)) :
          List HeapEntry) : Multiset HeapEntry).map HeapEntry.distance ≤
          ((allEntries hv w₁ ids₁ : List HeapEntry) :
            Multiset HeapEntry).map HeapEntry.distance :=
        Multiset.map_le_map (by rw [hm1]; exact hS1)
      have := Multiset.nodup_of_le hsub hndm
      rw [Multiset.map_coe, Multiset.coe_nodup] at this
      exact this)
  rw [hfin]

theorem xds_perm_invariant_witness :
    xor_distance_selection "x" [] 0 1 [[1], [2], [3]] (fun _ => []) none =
      xor_distance_selection "x" [] 0 1 [[3], [1], [2]] (fun _ => []) none :=
  xds_perm_invariant "x" [] 0 1 [[1], [2], [3]] [[3], [1], [2]]
    (fun _ => []) none none (by decide) (by decide) (by decide) (by decide)

/-- C2 counterexample: `[[1], [0,1]]` and `[[0,1], [1]]` are permutations
of one another (weights absent, so the pairs permute too), both candidates
have effective distance 1 (a tie), and the two runs select *different*
candidate sets — `[[1]]` versus `[[0,1]]`. -/
theorem xds_perm_counterexample :
    (wPairs [[1], [0, 1]] none).Perm (wPairs [[0, 1], [1]] none) ∧
    xor_distance_selection "x" [] 0 1 [[1], [0, 1]] (fun _ => []) none =
      some [[1]] ∧
    xor_distance_selection "x" [] 0 1 [[0, 1], [1]] (fun _ => []) none =
      some [[0, 1]] ∧
    ¬ ([[1]] : List (List Nat)).Perm [[0, 1]] := by
  decide

/-! ## Weight monotonicity: machinery -/

theorem mkEntry_id (hv : Nat) (weights : Option (List Nat)) (i : Nat)
    (id : List Nat) : (mkEntry hv weights i id).id = id := rfl

theorem heapEntry_eq_of (a b : HeapEntry) (h1 : a.id = b.id)
    (h2 : a.distance = b.distance) : a = b := by
  cases a with
  | mk ia da =>
    cases b with
    | mk ib db =>
      dsimp at h1 h2
      rw [h1, h2]

theorem div_branch_le (d w w' : Nat) (hlt : w < w') :
    (if 0 < w' then d / w' else d) ≤ (if 0 < w then d / w else d) := by
  rw [if_pos (by omega)]
  by_cases hpos : 0 < w
  · rw [if_pos hpos]
    exact Nat.div_le_div_left (by omega) hpos
  · rw [if_neg hpos]
    exact Nat.div_le_self d w'

theorem applyWeight_set_le (ws : List Nat) (i w' d : Nat)
    (hi : i < ws.length) (hlt : ws.get ⟨i, hi⟩ < w') :
    applyWeight (some (ws.set i w')) i d ≤ applyWeight (some ws) i d := by
  rw [applyWeight_some, applyWeight_some,
    List.getElem?_set_eq_of_lt w' hi, List.getElem?_eq_getElem hi]
  show (if 0 < w' then d / w' else d) ≤ (if 0 < ws[i] then d / ws[i] else d)
  exact div_branch_le d ws[i] w' hlt

theorem allEntries_getElemOpt (hv : Nat) (w : Option (List Nat))
    (ids : List (List Nat)) (j : Nat) :
    getElem? (allEntries hv w ids) j =
      (getElem? ids j).map (mkEntry hv w j) := by
  unfold allEntries
  rw [List.getElem?_map, List.getElem?_enum]
  cases h : getElem? ids j with
  | none => rfl
  | some id => rfl

theorem mkEntry_set_ne (hv : Nat) (ws : List Nat) (i j w' : Nat)
    (hne : i ≠ j) (id : List Nat) :
    mkEntry hv (some (ws.set i w')) j id = mkEntry hv (some ws) j id := by
  unfold mkEntry
  rw [applyWeight_some, applyWeight_some, List.getElem?_set_ne hne]

theorem allEntries_set_take (hv : Nat) (ws : List Nat) (i w' : Nat)
    (ids : List (List Nat)) :
    (allEntries hv (some (ws.set i w')) ids).take i =
      (allEntries hv (some ws) ids).take i := by
  apply List.ext_getElem?
  intro j
  rw [List.getElem?_take, List.getElem?_take]
  by_cases hj : j < i
  · rw [if_pos hj, if_pos hj, allEntries_getElemOpt, allEntries_getElemOpt]
    cases h : getElem? ids j with
    | none => rfl
    | some id =>
      show some _ = some _
      rw [mkEntry_set_ne hv ws i j w' (by omega) id]
  · rw [if_neg hj, if_neg hj]

theorem allEntries_set_drop (hv : Nat) (ws : List Nat) (i w' : Nat)
    (ids : List (List Nat)) :
    (allEntries hv (some (ws.set i w')) ids).drop (i + 1) =
      (allEntries hv (some ws) ids).drop (i + 1) := by
  apply List.ext_getElem?
  intro j
  rw [List.getElem?_drop, List.getElem?_drop,
    allEntries_getElemOpt, allEntries_getElemOpt]
  cases h : getElem? ids (i + 1 + j) with
  | none => rfl
  | some id =>
    show some _ = some _
    rw [mkEntry_set_ne hv ws i (i + 1 + j) w' (by omega) id]

theorem list_eq_take_get_drop (l : List HeapEntry) (i : Nat)
    (h : i < l.length) :
    l = l.take i ++ l.get ⟨i, h⟩ :: l.drop (i + 1) := by
  conv_lhs => rw [← List.take_append_drop i l]
  rw [List.drop_eq_getElem_cons h, List.get_eq_getElem]

theorem xds_zero_of_pos (name : String) (seed : List Nat) (seq : Nat)
    (ids : List (List Nat)) (alg : List Nat → List Nat)
    (weights : Option (List Nat)) (hpos : 0 < ids.length) :
    xor_distance_selection name seed seq 0 ids alg weights = some [] := by
  unfold xor_distance_selection
  rw [if_neg (by omega), if_neg (by omega)]
  show some ((intoSortedVec (buildHeap
    (fromBytesBE (compute_hash name seed seq alg)) 0 weights
    ids)).map HeapEntry.id) = _
  rw [buildHeap_eq_runHeap, runHeap_zero]
  rfl

theorem map_dist_erase (P : Multiset HeapEntry) (x : HeapEntry)
    (hx : x ∈ P) :
    (P.erase x).map HeapEntry.distance =
      (P.map HeapEntry.distance).erase x.distance := by
  have h1 : P.map HeapEntry.distance =
      x.distance ::ₘ (P.erase x).map HeapEntry.distance := by
    rw [← Multiset.map_cons, Multiset.cons_erase hx]
  rw [h1, Multiset.erase_cons_head]

theorem countP_distance_map (S : Multiset HeapEntry) (p : Nat → Prop)
    [DecidablePred p] :
    Multiset.countP (fun z => p z.distance) S =
      Multiset.countP p (S.map HeapEntry.distance) := by
  rw [Multiset.countP_map, Multiset.countP_eq_card_filter]

theorem countP_mono_pred {α : Type} (S : Multiset α) (p q : α → Prop)
    [DecidablePred p] [DecidablePred q] (h : ∀ a, p a → q a) :
    Multiset.countP p S ≤ Multiset.countP q S := by
  rw [Multiset.countP_eq_card_filter, Multiset.countP_eq_card_filter]
  exact Multiset.card_le_card (Multiset.monotone_filter_right S h)

theorem indexOf_prepend_self (a : List Nat) (v : List (List Nat)) :
    ∀ u : List (List Nat), a ∉ u →
      List.indexOf a (u ++ a :: v) = u.length := by
  intro u
  induction u with
  | nil =>
    intro _
    show List.indexOf a (a :: v) = 0
    simp [List.indexOf, List.findIdx_cons]
  | cons y u ih =>
    intro hu
    have hya : (y == a) = false := beq_eq_false_iff_ne.mpr
      (fun h => hu (by rw [← h] at *; exact List.mem_cons_self y u))
    have hu' : a ∉ u := fun h => hu (List.mem_cons_of_mem y h)
    show List.indexOf a (y :: (u ++ a :: v)) = u.length + 1
    have hstep : List.indexOf a (y :: (u ++ a :: v)) =
        List.indexOf a (u ++ a :: v) + 1 := by
      simp [List.indexOf, List.findIdx_cons, hya]
    rw [hstep, ih hu']

theorem sorted_pos_bounds (s : List HeapEntry) (e : HeapEntry)
    (R : Multiset HeapEntry) (hs : List.Sorted distLE s)
    (hm : (s : Multiset HeapEntry) = e ::ₘ R)
    (hid : ∀ x ∈ R, x.id ≠ e.id) :
    Multiset.countP (fun z => z.distance < e.distance) R ≤
      List.indexOf e.id (s.map HeapEntry.id) ∧
    List.indexOf e.id (s.map HeapEntry.id) ≤
      Multiset.countP (fun z => z.distance ≤ e.distance) R := by
  have hes : e ∈ s := by
    have : e ∈ (s : Multiset HeapEntry) := by
      rw [hm]
      exact Multiset.mem_cons_self e R
    exact Multiset.mem_coe.mp this
  obtain ⟨u, v, huv⟩ := List.append_of_mem hes
  subst huv
  have hcoe : ((u ++ v : List HeapEntry) : Multiset HeapEntry) = ↑u + ↑v := by
    rw [← Multiset.coe_add]
  have hR : ((u ++ v : List HeapEntry) : Multiset HeapEntry) = R := by
    have h1 : ((u ++ e :: v : List HeapEntry) : Multiset HeapEntry) =
        e ::ₘ ↑(u ++ v) := Multiset.coe_eq_coe.mpr List.perm_middle
    rw [h1] at hm
    exact (Multiset.cons_inj_right e).mp hm
  have huR : ∀ x ∈ u, x ∈ R := by
    intro x hx
    rw [← hR]
    exact Multiset.mem_coe.mpr (List.mem_append_left v hx)
  have hnotu : e.id ∉ u.map HeapEntry.id := by
    intro hmem
    obtain ⟨z, hz, hzid⟩ := List.mem_map.mp hmem
    exact hid z (huR z hz) hzid
  have hidx : List.indexOf e.id ((u ++ e :: v).map HeapEntry.id) =
      (u.map HeapEntry.id).length := by
    rw [List.map_append, List.map_cons]
    exact indexOf_prepend_self e.id (v.map HeapEntry.id)
      (u.map HeapEntry.id) hnotu
  rw [hidx, List.length_map]
  have hpw : List.Pairwise distLE (u ++ e :: v) := hs
  rw [List.pairwise_append] at hpw
  obtain ⟨hsu, hsev, hcross⟩ := hpw
  have hev := List.pairwise_cons.mp hsev
  constructor
  · have hsplit : Multiset.countP
        (fun z : HeapEntry => z.distance < e.distance) R =
        Multiset.countP (fun z : HeapEntry => z.distance < e.distance)
          (↑u : Multiset HeapEntry) +
          Multiset.countP (fun z : HeapEntry => z.distance < e.distance)
            (↑v : Multiset HeapEntry) := by
      rw [← hR, hcoe, Multiset.countP_add]
    have hv0 : Multiset.countP (fun z : HeapEntry => z.distance < e.distance)
        (↑v : Multiset HeapEntry) = 0 := by
      refine Multiset.countP_eq_zero.mpr ?_
      intro y hy
      have hle : e.distance ≤ y.distance := hev.1 y (Multiset.mem_coe.mp hy)
      omega
    have hu_le : Multiset.countP (fun z : HeapEntry => z.distance < e.distance)
        (↑u : Multiset HeapEntry) ≤ u.length := by
      have := Multiset.countP_le_card
        (fun z : HeapEntry => z.distance < e.distance)
        (↑u : Multiset HeapEntry)
      rw [Multiset.coe_card] at this
      exact this
    omega
  · have hall : ∀ x ∈ (↑u : Multiset HeapEntry),
        x.distance ≤ e.distance := by
      intro x hx
      exact hcross x (Multiset.mem_coe.mp hx) e (List.mem_cons_self e v)
    have hcard : Multiset.countP (fun z : HeapEntry => z.distance ≤ e.distance)
        (↑u : Multiset HeapEntry) = u.length := by
      rw [Multiset.countP_eq_card.mpr hall, Multiset.coe_card]
    have hle : (↑u : Multiset HeapEntry) ≤ R := by
      rw [← hR, hcoe]
      exact Multiset.le_add_right _ _
    have := Multiset.countP_le_of_le
      (fun z : HeapEntry => z.distance ≤ e.distance) hle
    omega

theorem coupled_first (n : Nat) (hn : 0 < n) (h0 : List HeapEntry)
    (hh : IsHeap h0) (eA eB : HeapEntry)
    (hdlt : eB.distance < eA.distance)
    (h0id : ∀ x ∈ h0, x.id ≠ eA.id) :
    (∀ x ∈ heapStep n h0 eA, x.id ≠ eA.id) ∨
    (∃ P Q : Multiset HeapEntry,
      ((heapStep n h0 eA : List HeapEntry) : Multiset HeapEntry) =
        eA ::ₘ P ∧
      ((heapStep n h0 eB : List HeapEntry) : Multiset HeapEntry) =
        eB ::ₘ Q ∧
      P.map HeapEntry.distance = Q.map HeapEntry.distance ∧
      (∀ x ∈ P, x.id ≠ eA.id) ∧ (∀ x ∈ Q, x.id ≠ eA.id)) := by
  by_cases hfill : h0.length < n
  · rw [heapStep_of_lt eA hfill, heapStep_of_lt eB hfill]
    right
    refine ⟨(h0 : Multiset HeapEntry), (h0 : Multiset HeapEntry),
      (heapPush_spec h0 eA hh).2.1, (heapPush_spec h0 eB hh).2.1, rfl,
      ?_, ?_⟩ <;>
    · intro x hx
      exact h0id x (Multiset.mem_coe.mp hx)
  · have h0ne : h0 ≠ [] := by
      intro h'
      rw [h'] at hfill
      simp at hfill
      omega
    have hp := heapPeek_eq h0 h0ne
    rw [heapStep_peek_some eA hp hfill, heapStep_peek_some eB hp hfill]
    by_cases hA : eA.distance < (eGet h0 0).distance
    · rw [if_pos hA, if_pos (by omega : eB.distance < (eGet h0 0).distance)]
      right
      have hpop := heapPop_spec h0 h0ne hh
      refine ⟨((heapPop h0 : List HeapEntry) : Multiset HeapEntry),
        ((heapPop h0 : List HeapEntry) : Multiset HeapEntry),
        (heapPush_spec _ eA hpop.1).2.1,
        (heapPush_spec _ eB hpop.1).2.1, rfl, ?_, ?_⟩ <;>
      · intro x hx
        have hxh0 : x ∈ h0 := by
          have hxm : x ∈ (h0 : Multiset HeapEntry) := by
            rw [hpop.2.1]
            exact Multiset.mem_cons_of_mem hx
          exact Multiset.mem_coe.mp hxm
        exact h0id x hxh0
    · rw [if_neg hA]
      left
      exact h0id

theorem coupled_fold (n : Nat) (eA eB : HeapEntry)
    (hdlt : eB.distance < eA.distance) :
    ∀ (suf hA hB : List HeapEntry), IsHeap hA → IsHeap hB →
    (∀ x ∈ suf, x.id ≠ eA.id) →
    ((∀ x ∈ hA, x.id ≠ eA.id) ∨
      (∃ P Q : Multiset HeapEntry,
        (hA : Multiset HeapEntry) = eA ::ₘ P ∧
        (hB : Multiset HeapEntry) = eB ::ₘ Q ∧
        P.map HeapEntry.distance = Q.map HeapEntry.distance ∧
        (∀ x ∈ P, x.id ≠ eA.id) ∧ (∀ x ∈ Q, x.id ≠ eA.id))) →
    ((∀ x ∈ suf.foldl (heapStep n) hA, x.id ≠ eA.id) ∨
      (∃ P Q : Multiset HeapEntry,
        ((suf.foldl (heapStep n) hA : List HeapEntry) :
          Multiset HeapEntry) = eA ::ₘ P ∧
        ((suf.foldl (heapStep n) hB : List HeapEntry) :
          Multiset HeapEntry) = eB ::ₘ Q ∧
        P.map HeapEntry.distance = Q.map HeapEntry.distance ∧
        (∀ x ∈ P, x.id ≠ eA.id) ∧ (∀ x ∈ Q, x.id ≠ eA.id))) := by
  intro suf
  induction suf with
  | nil =>
    intro hA hB _ _ _ hinv
    exact hinv
  | cons e rest ih =>
    intro hA hB hhA hhB hsuf hinv
    have heid : e.id ≠ eA.id := hsuf e (List.mem_cons_self e rest)
    have hrest : ∀ x ∈ rest, x.id ≠ eA.id :=
      fun x hx => hsuf x (List.mem_cons_of_mem e hx)
    show (∀ x ∈ rest.foldl (heapStep n) (heapStep n hA e),
        x.id ≠ eA.id) ∨ _
    refine ih (heapStep n hA e) (heapStep n hB e)
      (heapStep_isHeap hhA e) (heapStep_isHeap hhB e) hrest ?_
    rcases hinv with hterm | ⟨P, Q, hPA, hQB, hdist, hPid, hQid⟩
    · left
      intro x hx
      have hxle := @heapStep_mset_le n hA hhA e
      have hxc : x ∈ e ::ₘ (hA : Multiset HeapEntry) :=
        Multiset.mem_of_le hxle (Multiset.mem_coe.mpr hx)
      rcases Multiset.mem_cons.mp hxc with rfl | hxh
      · exact heid
      · exact hterm x (Multiset.mem_coe.mp hxh)
    · -- both heaps carry the coupled entries
      have hPQcard : Multiset.card P = Multiset.card Q := by
        have hc := congrArg Multiset.card hdist
        simpa using hc
      have hAcard : hA.length = Multiset.card P + 1 := by
        have hc := congrArg Multiset.card hPA
        rw [Multiset.coe_card, Multiset.card_cons] at hc
        exact hc
      have hBcard : hB.length = Multiset.card Q + 1 := by
        have hc := congrArg Multiset.card hQB
        rw [Multiset.coe_card, Multiset.card_cons] at hc
        exact hc
      have hlenAB : hA.length = hB.length := by omega
      by_cases hfill : hA.length < n
      · have hfillB : hB.length < n := by omega
        rw [heapStep_of_lt e hfill, heapStep_of_lt e hfillB]
        right
        refine ⟨e ::ₘ P, e ::ₘ Q, ?_, ?_, ?_, ?_, ?_⟩
        · rw [(heapPush_spec hA e hhA).2.1, hPA]
          exact Multiset.cons_swap e eA P
        · rw [(heapPush_spec hB e hhB).2.1, hQB]
          exact Multiset.cons_swap e eB Q
        · rw [Multiset.map_cons, Multiset.map_cons, hdist]
        · intro x hx
          rcases Multiset.mem_cons.mp hx with rfl | hxP
          · exact heid
          · exact hPid x hxP
        · intro x hx
          rcases Multiset.mem_cons.mp hx with rfl | hxQ
          · exact heid
          · exact hQid x hxQ
      · have hfillB : ¬ hB.length < n := by omega
        have hAne : hA ≠ [] := by
          intro h'
          rw [h'] at hAcard
          simp at hAcard
        have hBne : hB ≠ [] := by
          intro h'
          rw [h'] at hBcard
          simp at hBcard
        have hpA := heapPeek_eq hA hAne
        have hpB := heapPeek_eq hB hBne
        rw [heapStep_peek_some e hpA hfill,
          heapStep_peek_some e hpB hfillB]
        have haA : eA ∈ hA := by
          have : eA ∈ (hA : Multiset HeapEntry) := by
            rw [hPA]
            exact Multiset.mem_cons_self eA P
          exact Multiset.mem_coe.mp this
        have htAmem : eGet hA 0 ∈ hA := eGet_mem hA 0 (by omega)
        have htBmem : eGet hB 0 ∈ hB := eGet_mem hB 0 (by omega)
        have heAdA : eA.distance ≤ (eGet hA 0).distance :=
          hhA.mem_le_root haA
        have hPtoQ : ∀ z ∈ P, ∃ q ∈ Q, q.distance = z.distance := by
          intro z hz
          have hzm : z.distance ∈ Q.map HeapEntry.distance := by
            rw [← hdist]
            exact Multiset.mem_map_of_mem _ hz
          obtain ⟨q, hq, hqd⟩ := Multiset.mem_map.mp hzm
          exact ⟨q, hq, hqd⟩
        have hQtoP : ∀ z ∈ Q, ∃ p ∈ P, p.distance = z.distance := by
          intro z hz
          have hzm : z.distance ∈ P.map HeapEntry.distance := by
            rw [hdist]
            exact Multiset.mem_map_of_mem _ hz
          obtain ⟨p, hp, hpd⟩ := Multiset.mem_map.mp hzm
          exact ⟨p, hp, hpd⟩
        have hmemPA : ∀ p ∈ P, p ∈ hA := by
          intro p hp
          have : p ∈ (hA : Multiset HeapEntry) := by
            rw [hPA]
            exact Multiset.mem_cons_of_mem hp
          exact Multiset.mem_coe.mp this
        have hmemQB : ∀ q ∈ Q, q ∈ hB := by
          intro q hq
          have : q ∈ (hB : Multiset HeapEntry) := by
            rw [hQB]
            exact Multiset.mem_cons_of_mem hq
          exact Multiset.mem_coe.mp this
        have htBA : (eGet hB 0).distance ≤ (eGet hA 0).distance := by
          have htm : eGet hB 0 ∈ (hB : Multiset HeapEntry) :=
            Multiset.mem_coe.mpr htBmem
          rw [hQB] at htm
          rcases Multiset.mem_cons.mp htm with heq | htq
          · rw [heq]
            omega
          · obtain ⟨p, hp, hpd⟩ := hQtoP _ htq
            have := hhA.mem_le_root (hmemPA p hp)
            omega
        by_cases hcA : e.distance < (eGet hA 0).distance
        · rw [if_pos hcA]
          by_cases heAtop : eGet hA 0 = eA
          · -- the selected entry itself is evicted from the first run
            left
            intro x hx
            have hpopA := heapPop_spec hA hAne hhA
            have hxm : x ∈ ((heapPush (heapPop hA) e : List HeapEntry) :
                Multiset HeapEntry) := Multiset.mem_coe.mpr hx
            rw [(heapPush_spec _ e hpopA.1).2.1] at hxm
            rcases Multiset.mem_cons.mp hxm with rfl | hxpop
            · exact heid
            · have hmsetA := hpopA.2.1
              rw [heAtop, hPA] at hmsetA
              have hpopP : ((heapPop hA : List HeapEntry) :
                  Multiset HeapEntry) = P :=
                ((Multiset.cons_inj_right eA).mp hmsetA).symm
              rw [hpopP] at hxpop
              exact hPid x hxpop
          · have htAP : eGet hA 0 ∈ P := by
              have htm : eGet hA 0 ∈ (hA : Multiset HeapEntry) :=
                Multiset.mem_coe.mpr htAmem
              rw [hPA] at htm
              rcases Multiset.mem_cons.mp htm with h' | h'
              · exact absurd h' heAtop
              · exact h'
            obtain ⟨q, hqQ, hqd⟩ := hPtoQ _ htAP
            have htABeq : (eGet hB 0).distance = (eGet hA 0).distance := by
              have := hhB.mem_le_root (hmemQB q hqQ)
              omega
            have hcB : e.distance < (eGet hB 0).distance := by omega
            rw [if_pos hcB]
            have htBne : eGet hB 0 ≠ eB := by
              intro h'
              have hd : (eGet hB 0).distance = eB.distance := by rw [h']
              omega
            have htBQ : eGet hB 0 ∈ Q := by
              have htm : eGet hB 0 ∈ (hB : Multiset HeapEntry) :=
                Multiset.mem_coe.mpr htBmem
              rw [hQB] at htm
              rcases Multiset.mem_cons.mp htm with h' | h'
              · exact absurd h' htBne
              · exact h'
            right
            have hpopA := heapPop_spec hA hAne hhA
            have hpopB := heapPop_spec hB hBne hhB
            have hpopAm : ((heapPop hA : List HeapEntry) :
                Multiset HeapEntry) = eA ::ₘ P.erase (eGet hA 0) := by
              have hm := hpopA.2.1
              rw [hPA] at hm
              rw [← Multiset.cons_erase htAP, Multiset.cons_swap] at hm
              exact ((Multiset.cons_inj_right _).mp hm).symm
            have hpopBm : ((heapPop hB : List HeapEntry) :
                Multiset HeapEntry) = eB ::ₘ Q.erase (eGet hB 0) := by
              have hm := hpopB.2.1
              rw [hQB] at hm
              rw [← Multiset.cons_erase htBQ, Multiset.cons_swap] at hm
              exact ((Multiset.cons_inj_right _).mp hm).symm
            refine ⟨e ::ₘ P.erase (eGet hA 0), e ::ₘ Q.erase (eGet hB 0),
              ?_, ?_, ?_, ?_, ?_⟩
            · rw [(heapPush_spec _ e hpopA.1).2.1, hpopAm,
                Multiset.cons_swap]
            · rw [(heapPush_spec _ e hpopB.1).2.1, hpopBm,
                Multiset.cons_swap]
            · rw [Multiset.map_cons, Multiset.map_cons,
                map_dist_erase P _ htAP, map_dist_erase Q _ htBQ,
                hdist, htABeq]
            · intro x hx
              rcases Multiset.mem_cons.mp hx with rfl | hxP
              · exact heid
              · exact hPid x (Multiset.mem_of_le (Multiset.erase_le _ P) hxP)
            · intro x hx
              rcases Multiset.mem_cons.mp hx with rfl | hxQ
              · exact heid
              · exact hQid x (Multiset.mem_of_le (Multiset.erase_le _ Q) hxQ)
        · rw [if_neg hcA]
          have hcB : ¬ e.distance < (eGet hB 0).distance := by omega
          rw [if_neg hcB]
          right
          exact ⟨P, Q, hPA, hQB, hdist, hPid, hQid⟩

theorem runs_coupled_core (n : Nat) (hn : 0 < n) (hv : Nat)
    (ws : List Nat) (i w' : Nat) (ids : List (List Nat))
    (hi : i < ids.length) (hiw : i < ws.length)
    (hlt : ws.get ⟨i, hiw⟩ < w')
    (huniq : ∀ j, (hj : j < ids.length) → j ≠ i →
      ids.get ⟨j, hj⟩ ≠ ids.get ⟨i, hi⟩) :
    ids.get ⟨i, hi⟩ ∈
      (intoSortedVec (runHeap n (allEntries hv (some ws) ids))).map
        HeapEntry.id →
    (ids.get ⟨i, hi⟩ ∈
      (intoSortedVec (runHeap n
        (allEntries hv (some (ws.set i w')) ids))).map HeapEntry.id ∧
    List.indexOf (ids.get ⟨i, hi⟩)
        ((intoSortedVec (runHeap n
          (allEntries hv (some (ws.set i w')) ids))).map HeapEntry.id) ≤
      List.indexOf (ids.get ⟨i, hi⟩)
        ((intoSortedVec (runHeap n (allEntries hv (some ws) ids))).map
          HeapEntry.id)) := by
  intro hmemA
  have hkey : (mkEntry hv (some (ws.set i w')) i
      (ids.get ⟨i, hi⟩)).distance ≤
      (mkEntry hv (some ws) i (ids.get ⟨i, hi⟩)).distance :=
    applyWeight_set_le ws i w' _ hiw hlt
  rcases Nat.lt_or_ge
      (mkEntry hv (some (ws.set i w')) i (ids.get ⟨i, hi⟩)).distance
      (mkEntry hv (some ws) i (ids.get ⟨i, hi⟩)).distance
    with hstrict | heq0
  case inr =>
    -- the effective distance did not change: the entry lists coincide
    have heB : mkEntry hv (some (ws.set i w')) i (ids.get ⟨i, hi⟩) =
        mkEntry hv (some ws) i (ids.get ⟨i, hi⟩) :=
      heapEntry_eq_of _ _ rfl (le_antisymm hkey heq0)
    have hes : allEntries hv (some (ws.set i w')) ids =
        allEntries hv (some ws) ids := by
      apply List.ext_getElem?
      intro j
      rw [allEntries_getElemOpt, allEntries_getElemOpt]
      by_cases hj : j = i
      · subst hj
        rw [List.getElem?_eq_getElem hi]
        simp only [Option.map_some']
        have hgi : ids[j] = ids.get ⟨j, hi⟩ := by
          rw [List.get_eq_getElem]
        rw [hgi, heB]
      · cases hx : getElem? ids j with
        | none => rfl
        | some id =>
          simp only [Option.map_some']
          rw [mkEntry_set_ne hv ws i j w' (fun h => hj h.symm) id]
    rw [hes]
    exact ⟨hmemA, le_refl _⟩
  case inl =>
    have hilenA : i < (allEntries hv (some ws) ids).length := by
      rw [allEntries_length]
      exact hi
    have hilenB : i < (allEntries hv (some (ws.set i w')) ids).length := by
      rw [allEntries_length]
      exact hi
    have hgA : (allEntries hv (some ws) ids).get ⟨i, hilenA⟩ =
        mkEntry hv (some ws) i (ids.get ⟨i, hi⟩) := by
      have h1 := allEntries_getElemOpt hv (some ws) ids i
      rw [List.getElem?_eq_getElem hi,
        List.getElem?_eq_getElem hilenA] at h1
      simp only [Option.map_some'] at h1
      rw [List.get_eq_getElem, List.get_eq_getElem]
      exact Option.some.inj h1
    have hgB : (allEntries hv (some (ws.set i w')) ids).get ⟨i, hilenB⟩ =
        mkEntry hv (some (ws.set i w')) i (ids.get ⟨i, hi⟩) := by
      have h1 := allEntries_getElemOpt hv (some (ws.set i w')) ids i
      rw [List.getElem?_eq_getElem hi,
        List.getElem?_eq_getElem hilenB] at h1
      simp only [Option.map_some'] at h1
      rw [List.get_eq_getElem, List.get_eq_getElem]
      exact Option.some.inj h1
    have hdecA : allEntries hv (some ws) ids =
        (allEntries hv (some ws) ids).take i ++
          mkEntry hv (some ws) i (ids.get ⟨i, hi⟩) ::
          (allEntries hv (some ws) ids).drop (i + 1) := by
      conv_lhs => rw [list_eq_take_get_drop
        (allEntries hv (some ws) ids) i hilenA]
      rw [hgA]
    have hdecB : allEntries hv (some (ws.set i w')) ids =
        (allEntries hv (some ws) ids).take i ++
          mkEntry hv (some (ws.set i w')) i (ids.get ⟨i, hi⟩) ::
          (allEntries hv (some ws) ids).drop (i + 1) := by
      conv_lhs => rw [list_eq_take_get_drop
        (allEntries hv (some (ws.set i w')) ids) i hilenB]
      rw [hgB, allEntries_set_take, allEntries_set_drop]
    have hpreid : ∀ x ∈ (allEntries hv (some ws) ids).take i,
        x.id ≠ ids.get ⟨i, hi⟩ := by
      intro x hx
      obtain ⟨j, hj, hjx⟩ := List.getElem_of_mem hx
      have hjlen : j < i := by
        rw [List.length_take] at hj
        omega
      have hjid : j < ids.length := by omega
      have hjxo : getElem? ((allEntries hv (some ws) ids).take i) j =
          some x := by
        rw [List.getElem?_eq_getElem hj, hjx]
      rw [List.getElem?_take, if_pos hjlen, allEntries_getElemOpt,
        List.getElem?_eq_getElem hjid] at hjxo
      simp only [Option.map_some'] at hjxo
      rw [← Option.some.inj hjxo, mkEntry_id]
      have hne := huniq j hjid (by omega)
      rw [List.get_eq_getElem, List.get_eq_getElem] at hne
      rw [List.get_eq_getElem]
      exact hne
    have hsufid : ∀ x ∈ (allEntries hv (some ws) ids).drop (i + 1),
        x.id ≠ (mkEntry hv (some ws) i (ids.get ⟨i, hi⟩)).id := by
      intro x hx
      obtain ⟨j, hj, hjx⟩ := List.getElem_of_mem hx
      have hjlen : i + 1 + j < (allEntries hv (some ws) ids).length := by
        rw [List.length_drop] at hj
        omega
      have hjid : i + 1 + j < ids.length := by
        rw [allEntries_length] at hjlen
        exact hjlen
      have hjxo : getElem? ((allEntries hv (some ws) ids).drop (i + 1)) j =
          some x := by
        rw [List.getElem?_eq_getElem hj, hjx]
      rw [List.getElem?_drop, allEntries_getElemOpt,
        List.getElem?_eq_getElem hjid] at hjxo
      simp only [Option.map_some'] at hjxo
      rw [← Option.some.inj hjxo, mkEntry_id, mkEntry_id]
      have hne := huniq (i + 1 + j) hjid (by omega)
      rw [List.get_eq_getElem, List.get_eq_getElem] at hne
      exact hne
    have hrunpre := runHeap_spec n hn ((allEntries hv (some ws) ids).take i)
    have hh0id : ∀ x ∈ runHeap n ((allEntries hv (some ws) ids).take i),
        x.id ≠ (mkEntry hv (some ws) i (ids.get ⟨i, hi⟩)).id := by
      intro x hx
      have hxm := Multiset.mem_of_le hrunpre.2.2.1
        (Multiset.mem_coe.mpr hx)
      rw [mkEntry_id]
      exact hpreid x (Multiset.mem_coe.mp hxm)
    have hfoldA : runHeap n (allEntries hv (some ws) ids) =
        ((allEntries hv (some ws) ids).drop (i + 1)).foldl (heapStep n)
          (heapStep n
            (runHeap n ((allEntries hv (some ws) ids).take i))
            (mkEntry hv (some ws) i (ids.get ⟨i, hi⟩))) := by
      conv_lhs => rw [hdecA]
      unfold runHeap
      rw [List.foldl_append, List.foldl_cons]
    have hfoldB : runHeap n (allEntries hv (some (ws.set i w')) ids) =
        ((allEntries hv (some ws) ids).drop (i + 1)).foldl (heapStep n)
          (heapStep n
            (runHeap n ((allEntries hv (some ws) ids).take i))
            (mkEntry hv (some (ws.set i w')) i (ids.get ⟨i, hi⟩))) := by
      conv_lhs => rw [hdecB]
      unfold runHeap
      rw [List.foldl_append, List.foldl_cons]
    have hinit := coupled_first n hn
      (runHeap n ((allEntries hv (some ws) ids).take i)) hrunpre.1
      (mkEntry hv (some ws) i (ids.get ⟨i, hi⟩))
      (mkEntry hv (some (ws.set i w')) i (ids.get ⟨i, hi⟩))
      hstrict hh0id
    have hfin := coupled_fold n
      (mkEntry hv (some ws) i (ids.get ⟨i, hi⟩))
      (mkEntry hv (some (ws.set i w')) i (ids.get ⟨i, hi⟩))
      hstrict
      ((allEntries hv (some ws) ids).drop (i + 1))
      (heapStep n (runHeap n ((allEntries hv (some ws) ids).take i))
        (mkEntry hv (some ws) i (ids.get ⟨i, hi⟩)))
      (heapStep n (runHeap n ((allEntries hv (some ws) ids).take i))
        (mkEntry hv (some (ws.set i w')) i (ids.get ⟨i, hi⟩)))
      (heapStep_isHeap hrunpre.1 _) (heapStep_isHeap hrunpre.1 _)
      hsufid hinit
    rw [← hfoldA, ← hfoldB] at hfin
    have hrunA := runHeap_spec n hn (allEntries hv (some ws) ids)
    have hrunB := runHeap_spec n hn (allEntries hv (some (ws.set i w')) ids)
    obtain ⟨hmA, hsortA, hlenA⟩ := intoSortedVec_spec _ hrunA.1
    obtain ⟨hmB, hsortB, hlenB⟩ := intoSortedVec_spec _ hrunB.1
    rcases hfin with hterm | ⟨P, Q, hPA, hQB, hdist, hPid, hQid⟩
    · exfalso
      obtain ⟨x, hxs, hxid⟩ := List.mem_map.mp hmemA
      have hxr : x ∈ runHeap n (allEntries hv (some ws) ids) := by
        have hxm := Multiset.mem_coe.mpr hxs
        rw [hmA] at hxm
        exact Multiset.mem_coe.mp hxm
      exact hterm x hxr hxid
    · constructor
      · have heBr : mkEntry hv (some (ws.set i w')) i (ids.get ⟨i, hi⟩) ∈
            intoSortedVec (runHeap n
              (allEntries hv (some (ws.set i w')) ids)) := by
          have hm : mkEntry hv (some (ws.set i w')) i (ids.get ⟨i, hi⟩) ∈
              ((intoSortedVec (runHeap n
                (allEntries hv (some (ws.set i w')) ids)) :
                List HeapEntry) : Multiset HeapEntry) := by
            rw [hmB, hQB]
            exact Multiset.mem_cons_self _ _
          exact Multiset.mem_coe.mp hm
        exact List.mem_map.mpr ⟨_, heBr, rfl⟩
      · have hbA := sorted_pos_bounds
          (intoSortedVec (runHeap n (allEntries hv (some ws) ids)))
          (mkEntry hv (some ws) i (ids.get ⟨i, hi⟩)) P hsortA
          (by rw [hmA, hPA]) hPid
        have hbB := sorted_pos_bounds
          (intoSortedVec (runHeap n
            (allEntries hv (some (ws.set i w')) ids)))
          (mkEntry hv (some (ws.set i w')) i (ids.get ⟨i, hi⟩)) Q hsortB
          (by rw [hmB, hQB]) hQid
        have ht1 : Multiset.countP (fun z : HeapEntry => z.distance ≤
            (mkEntry hv (some (ws.set i w')) i
              (ids.get ⟨i, hi⟩)).distance) Q =
            Multiset.countP (fun z : HeapEntry => z.distance ≤
              (mkEntry hv (some (ws.set i w')) i
                (ids.get ⟨i, hi⟩)).distance) P := by
          have htQ := countP_distance_map Q
            (fun d => d ≤ (mkEntry hv (some (ws.set i w')) i
              (ids.get ⟨i, hi⟩)).distance)
          have htP := countP_distance_map P
            (fun d => d ≤ (mkEntry hv (some (ws.set i w')) i
              (ids.get ⟨i, hi⟩)).distance)
          rw [← hdist] at htQ
          exact htQ.trans htP.symm
        have ht2 : Multiset.countP (fun z : HeapEntry => z.distance ≤
            (mkEntry hv (some (ws.set i w')) i
              (ids.get ⟨i, hi⟩)).distance) P ≤
            Multiset.countP (fun z : HeapEntry => z.distance <
              (mkEntry hv (some ws) i (ids.get ⟨i, hi⟩)).distance) P := by
          refine countP_mono_pred P _ _ ?_
          intro a ha
          omega
        exact le_trans hbB.2
          (le_trans (le_of_eq ht1) (le_trans ht2 hbA.1))

/-- C3 (amended): replacing the weight at index `i` by a strictly larger
value never increases candidate `i`'s effective distance; and **provided
candidate `i`'s byte string occurs at no other index**, whenever candidate
`i` is selected before the change it is still selected after it, at the
same or an earlier position of the returned sequence.  (With duplicate
byte strings the position can move strictly later; see the
counterexample.) -/
theorem weight_increase_monotone (name : String) (seed : List Nat)
    (seq n : Nat) (ids : List (List Nat)) (alg : List Nat → List Nat)
    (ws : List Nat) (i w' : Nat) (hi : i < ids.length)
    (hiw : i < ws.length) (hlt : ws.get ⟨i, hiw⟩ < w')
    (huniq : ∀ j, (hj : j < ids.length) → j ≠ i →
      ids.get ⟨j, hj⟩ ≠ ids.get ⟨i, hi⟩) :
    (mkEntry (fromBytesBE (compute_hash name seed seq alg))
        (some (ws.set i w')) i (ids.get ⟨i, hi⟩)).distance ≤
      (mkEntry (fromBytesBE (compute_hash name seed seq alg))
        (some ws) i (ids.get ⟨i, hi⟩)).distance ∧
    (∀ outA outB,
      xor_distance_selection name seed seq n ids alg (some ws) =
        some outA →
      xor_distance_selection name seed seq n ids alg
        (some (ws.set i w')) = some outB →
      ids.get ⟨i, hi⟩ ∈ outA →
      ids.get ⟨i, hi⟩ ∈ outB ∧
        List.indexOf (ids.get ⟨i, hi⟩) outB ≤
          List.indexOf (ids.get ⟨i, hi⟩) outA) := by
  constructor
  · exact applyWeight_set_le ws i w' _ hiw hlt
  · intro outA outB houtA houtB hmemA
    by_cases hsat : ids.length ≤ n
    · have hA : xor_distance_selection name seed seq n ids alg (some ws) =
          some ids := by
        unfold xor_distance_selection
        rw [if_neg (by omega), if_pos hsat]
      have hB : xor_distance_selection name seed seq n ids alg
          (some (ws.set i w')) = some ids := by
        unfold xor_distance_selection
        rw [if_neg (by omega), if_pos hsat]
      have houtA2 : outA = ids := (Option.some.inj (hA.symm.trans houtA)).symm
      have houtB2 : outB = ids := (Option.some.inj (hB.symm.trans houtB)).symm
      subst houtA2
      subst houtB2
      exact ⟨hmemA, le_refl _⟩
    · rcases Nat.eq_zero_or_pos n with hn0 | hnpos
      · subst hn0
        have hA := xds_zero_of_pos name seed seq ids alg (some ws)
          (by omega)
        have houtA2 : outA = [] := (Option.some.inj (hA.symm.trans houtA)).symm
        rw [houtA2] at hmemA
        exact absurd hmemA (List.not_mem_nil _)
      · have hgen : n < ids.length := by omega
        have hA := xds_general name seed seq n ids alg (some ws) hgen
        have hB := xds_general name seed seq n ids alg
          (some (ws.set i w')) hgen
        have houtA2 : outA =
            (intoSortedVec (runHeap n
              (allEntries (fromBytesBE (compute_hash name seed seq alg))
                (some ws) ids))).map HeapEntry.id :=
          (Option.some.inj (hA.symm.trans houtA)).symm
        have houtB2 : outB =
            (intoSortedVec (runHeap n
              (allEntries (fromBytesBE (compute_hash name seed seq alg))
                (some (ws.set i w')) ids))).map HeapEntry.id :=
          (Option.some.inj (hB.symm.trans houtB)).symm
        subst houtA2
        subst houtB2
        exact runs_coupled_core n hnpos
          (fromBytesBE (compute_hash name seed seq alg)) ws i w' ids
          hi hiw hlt huniq hmemA

/-- C3 counterexample (duplicate byte strings): with candidates
`[[2], [3], [2]]`, reference 0 and `n = 2`, raising the weight of
candidate 0 from 2 to 3 *lowers* its effective distance (1 to 0) yet
moves its byte string from position 0 to position 1 of the result — a
strictly later position, refuting the unconditional position claim. -/
theorem weight_increase_counterexample :
    ([2, 4, 3] : List Nat).set 0 3 = [3, 4, 3] ∧
    xor_distance_selection "x" [] 0 2 [[2], [3], [2]] (fun _ => [])
      (some [2, 4, 3]) = some [[2], [3]] ∧
    xor_distance_selection "x" [] 0 2 [[2], [3], [2]] (fun _ => [])
      (some [3, 4, 3]) = some [[3], [2]] ∧
    (mkEntry (fromBytesBE (compute_hash "x" [] 0 (fun _ => [])))
      (some [3, 4, 3]) 0 [2]).distance <
      (mkEntry (fromBytesBE (compute_hash "x" [] 0 (fun _ => [])))
        (some [2, 4, 3]) 0 [2]).distance ∧
    List.indexOf ([2] : List Nat) [[2], [3]] = 0 ∧
    List.indexOf ([2] : List Nat) [[3], [2]] = 1 := by
  decide

theorem weight_increase_monotone_witness :
    [1] ∈ ([[1]] : List (List Nat)) ∧
    List.indexOf ([1] : List Nat) [[1]] ≤
      List.indexOf ([1] : List Nat) [[1]] := by
  have h := (weight_increase_monotone "x" [] 0 1 [[1], [2], [3]]
    (fun _ => []) [1, 1, 1] 0 2 (by decide) (by decide) (by decide)
    (by decide)).2 [[1]] [[1]] (by decide) (by decide) (by decide)
  exact h

-- sanity checks of the model on small concrete data
example : strBytes "ab" = [97, 98] := by decide
example : strBytes (Nat.repr 45) = [52, 53] := by decide
example : fromBytesBE [1, 0] = 256 := by decide
example : toU64Digits 0 = [] := by decide
example : (toU64Digits (2 ^ 64 + 5)).headD 0 = 5 := by decide
example :
    xor_distance_selection "x" [] 0 1 [[1], [0, 1]] (fun _ => []) none =
      some [[1]] := by decide
example :
    xor_distance_selection "x" [] 0 1 [[0, 1], [1]] (fun _ => []) none =
      some [[0, 1]] := by decide
example :
    xor_distance_selection "x" [] 0 2 [[2], [3], [2]] (fun _ => [])
      (some [2, 4, 3]) = some [[2], [3]] := by decide
example :
    xor_distance_selection "x" [] 0 2 [[2], [3], [2]] (fun _ => [])
      (some [3, 4, 3]) = some [[3], [2]] := by decide
example :
    xor_distance_selection "t" [7] 5 9 [[1], [2]] (fun l => l) none =
      some [[1], [2]] := by decide
example :
    xor_distance_selection "t" [7] 5 0 [[1], [2]] (fun l => l) none =
      some [] := by decide

end SeedSelection
